import Mathlib

/-!
# Verification of the stegcrack core (`src/utils.cc`)

A shallow embedding of the seed-cracking / payload-extraction core:

* `bits_to_bytes`   — bit-count to covering byte count (the C code computes it
  through single-precision `float`, which we model exactly with a
  round-to-nearest-even function over `ℚ`);
* the seed-space partition of `find_valid_seeds` (computed through `double`,
  modelled with the same rounding function at precision 53);
* `crack_seeds` — the per-worker scan loop, including its progress counter;
* `shift_bits` — the in-place one-bit left realignment;
* `extract_payload` / `extract_files` — the candidate filter and payload
  decoder.  The bit-extraction session (class `Extractor`, declared outside
  these sources) is modelled from the spec as an abstract bit stream; zlib's
  `uncompress` is an abstract oracle parameter.

Machine arithmetic is `ℕ` with explicit `% 2^32` where the C code can wrap.
IEEE arithmetic appears only where the C code really uses `float`/`double`:
it is modelled by `roundFP`, round to nearest with ties to even at a given
precision and unbounded exponent, which agrees with IEEE-754 binary32/binary64
on the (normal, non-overflowing) ranges exercised here.
-/

namespace StegCrack

/-! ## Round-to-nearest-even over ℚ -/

/-- Round a rational to the nearest integer, ties to even. -/
def rne (x : ℚ) : ℤ :=
  if x - ⌊x⌋ < 1/2 then ⌊x⌋
  else if 1/2 < x - ⌊x⌋ then ⌊x⌋ + 1
  else if 2 ∣ ⌊x⌋ then ⌊x⌋ else ⌊x⌋ + 1

/-- `⌊log₂ q⌋` for a positive rational: the unique `e` with `2^e ≤ q < 2^(e+1)`. -/
def qLog2 (q : ℚ) : ℤ :=
  if q < 2 ^ ((q.num.toNat.log2 : ℤ) - (q.den.log2 : ℤ))
  then (q.num.toNat.log2 : ℤ) - (q.den.log2 : ℤ) - 1
  else (q.num.toNat.log2 : ℤ) - (q.den.log2 : ℤ)

/-- Binary floating-point rounding at mantissa precision `prec`
(round to nearest, ties to even, unbounded exponent).  For the values occurring
in this development (normal range, no overflow) this is exactly IEEE-754
binary32 (`prec = 24`, C `float`) resp. binary64 (`prec = 53`, C `double`). -/
def roundFP (prec : ℕ) (q : ℚ) : ℚ :=
  if q ≤ 0 then 0
  else (rne (q * 2 ^ ((prec : ℤ) - 1 - qLog2 q)) : ℚ) * 2 ^ (qLog2 q - ((prec : ℤ) - 1))

theorem rne_intCast (n : ℤ) : rne (n : ℚ) = n := by
  unfold rne
  norm_num

theorem floor_le_rne (x : ℚ) : ⌊x⌋ ≤ rne x := by
  unfold rne
  split_ifs <;> omega

theorem rne_le_floor_add_one (x : ℚ) : rne x ≤ ⌊x⌋ + 1 := by
  unfold rne
  split_ifs <;> omega

theorem rne_sub_abs_le (x : ℚ) : |(rne x : ℚ) - x| ≤ 1/2 := by
  have h1 : (⌊x⌋ : ℚ) ≤ x := Int.floor_le x
  have h2 : x < ⌊x⌋ + 1 := Int.lt_floor_add_one x
  rw [abs_le]
  unfold rne
  split_ifs with ha hb <;> push_cast <;> constructor <;> linarith

theorem rne_mono {x y : ℚ} (h : x ≤ y) : rne x ≤ rne y := by
  rcases lt_or_eq_of_le (Int.floor_mono h) with hf | hf
  · calc rne x ≤ ⌊x⌋ + 1 := rne_le_floor_add_one x
    _ ≤ ⌊y⌋ := by omega
    _ ≤ rne y := floor_le_rne y
  · have hr : x - ⌊x⌋ ≤ y - ⌊y⌋ := by
      rw [← hf]; linarith
    unfold rne
    rw [← hf]
    split_ifs <;> first | omega | linarith

theorem two_zpow_pos (k : ℤ) : (0:ℚ) < 2 ^ k := zpow_pos (by norm_num) k

theorem two_zpow_mono {a b : ℤ} (h : a ≤ b) : (2:ℚ) ^ a ≤ 2 ^ b :=
  zpow_right_mono₀ (by norm_num) h

theorem two_zpow_lt_iff {a b : ℤ} : (2:ℚ) ^ a < 2 ^ b ↔ a < b :=
  zpow_lt_zpow_iff_right₀ (by norm_num)

theorem two_zpow_le_iff {a b : ℤ} : (2:ℚ) ^ a ≤ 2 ^ b ↔ a ≤ b :=
  zpow_le_zpow_iff_right₀ (by norm_num)

theorem qLog2_spec {q : ℚ} (hq : 0 < q) :
    2 ^ qLog2 q ≤ q ∧ q < 2 ^ (qLog2 q + 1) := by
  set a : ℕ := q.num.toNat with hadef
  set b : ℕ := q.den with hbdef
  have hnum : (0:ℤ) < q.num := Rat.num_pos.mpr hq
  have ha0 : a ≠ 0 := by omega
  have hb0 : b ≠ 0 := q.den_nz
  have haq : ((a : ℤ) : ℚ) = (q.num : ℚ) := by
    rw [hadef, Int.toNat_of_nonneg hnum.le]
  have hqab : q = (a : ℚ) / (b : ℚ) := by
    have haQ : ((a : ℚ)) = (q.num : ℚ) := by exact_mod_cast haq
    rw [haQ, hbdef]
    exact (Rat.num_div_den q).symm
  have ha1 : 2 ^ a.log2 ≤ a := (Nat.le_log2 ha0).mp le_rfl
  have ha2 : a < 2 ^ (a.log2 + 1) := (Nat.log2_lt ha0).mp (Nat.lt_succ_self _)
  have hb1 : 2 ^ b.log2 ≤ b := (Nat.le_log2 hb0).mp le_rfl
  have hb2 : b < 2 ^ (b.log2 + 1) := (Nat.log2_lt hb0).mp (Nat.lt_succ_self _)
  have hbQ : (0:ℚ) < (b : ℚ) := by positivity
  -- upper estimate: q < 2 ^ (a.log2 - b.log2 + 1)
  have hA : q < 2 ^ ((a.log2 : ℤ) - (b.log2 : ℤ) + 1) := by
    have hnat : a * 2 ^ b.log2 < 2 ^ (a.log2 + 1) * b :=
      lt_of_lt_of_le (mul_lt_mul_of_pos_right ha2 (pow_pos (by norm_num) _))
        (mul_le_mul_of_nonneg_left hb1 (Nat.zero_le _))
    have hQ : (a : ℚ) * 2 ^ b.log2 < 2 ^ (a.log2 + 1) * b := by
      exact_mod_cast hnat
    rw [hqab, div_lt_iff₀ hbQ]
    have hsplit : (2:ℚ) ^ ((a.log2 : ℤ) - (b.log2 : ℤ) + 1) * (b : ℚ) * 2 ^ ((b.log2 : ℤ))
        = 2 ^ ((a.log2 : ℤ) + 1) * b := by
      rw [mul_right_comm, ← zpow_add₀ (by norm_num : (2:ℚ) ≠ 0)]
      ring_nf
    have h2 : ((2:ℚ) ^ (a.log2 + 1) * b : ℚ) = 2 ^ ((a.log2 : ℤ) + 1) * b := by
      rw [← zpow_natCast (2:ℚ) (a.log2 + 1)]
      push_cast
      ring
    have h3 : ((2:ℚ) ^ b.log2 : ℚ) = 2 ^ ((b.log2 : ℤ)) := (zpow_natCast (2:ℚ) b.log2).symm
    have := hQ
    rw [h2, h3] at this
    nlinarith [two_zpow_pos ((b.log2 : ℤ)), two_zpow_pos ((a.log2 : ℤ) - (b.log2 : ℤ) + 1),
      hsplit]
  -- lower estimate: 2 ^ (a.log2 - b.log2 - 1) < q
  have hB : 2 ^ ((a.log2 : ℤ) - (b.log2 : ℤ) - 1) < q := by
    have hnat : 2 ^ a.log2 * b < a * 2 ^ (b.log2 + 1) :=
      lt_of_le_of_lt (mul_le_mul_of_nonneg_right ha1 (Nat.zero_le _))
        (mul_lt_mul_of_pos_left hb2 (by omega : 0 < a))
    have hQ : (2:ℚ) ^ a.log2 * b < a * 2 ^ (b.log2 + 1) := by
      exact_mod_cast hnat
    rw [hqab, lt_div_iff₀ hbQ]
    have hsplit : (2:ℚ) ^ ((a.log2 : ℤ) - (b.log2 : ℤ) - 1) * (b : ℚ) * 2 ^ ((b.log2 : ℤ) + 1)
        = 2 ^ ((a.log2 : ℤ)) * b := by
      rw [mul_right_comm, ← zpow_add₀ (by norm_num : (2:ℚ) ≠ 0)]
      ring_nf
    have h2 : ((2:ℚ) ^ (b.log2 + 1) : ℚ) = 2 ^ ((b.log2 : ℤ) + 1) := by
      rw [← zpow_natCast (2:ℚ) (b.log2 + 1)]
      push_cast
      ring
    have h3 : ((2:ℚ) ^ a.log2 : ℚ) = 2 ^ ((a.log2 : ℤ)) := (zpow_natCast (2:ℚ) a.log2).symm
    have := hQ
    rw [h2, h3] at this
    nlinarith [two_zpow_pos ((b.log2 : ℤ) + 1), two_zpow_pos ((a.log2 : ℤ) - (b.log2 : ℤ) - 1),
      hsplit]
  unfold qLog2
  rw [← hadef, ← hbdef]
  split_ifs with hcase
  · constructor
    · linarith
    · simpa using hcase
  · constructor
    · linarith [not_lt.mp hcase]
    · exact hA

theorem qLog2_unique {q : ℚ} {e : ℤ} (hq : 0 < q)
    (h1 : 2 ^ e ≤ q) (h2 : q < 2 ^ (e + 1)) : qLog2 q = e := by
  obtain ⟨l1, l2⟩ := qLog2_spec hq
  by_contra hne
  rcases lt_or_gt_of_ne hne with hlt | hgt
  · have : (2:ℚ) ^ (qLog2 q + 1) ≤ 2 ^ e := two_zpow_mono (by omega)
    linarith
  · have : (2:ℚ) ^ (e + 1) ≤ 2 ^ (qLog2 q) := two_zpow_mono (by omega)
    linarith

theorem roundFP_nonpos {prec : ℕ} {q : ℚ} (h : q ≤ 0) : roundFP prec q = 0 := by
  unfold roundFP
  rw [if_pos h]

theorem roundFP_nonneg (prec : ℕ) (q : ℚ) : 0 ≤ roundFP prec q := by
  unfold roundFP
  split_ifs with h
  · exact le_refl 0
  · push_neg at h
    have he : (0:ℚ) < q * 2 ^ ((prec:ℤ) - 1 - qLog2 q) := mul_pos h (two_zpow_pos _)
    have h1 : (0:ℤ) ≤ rne (q * 2 ^ ((prec:ℤ) - 1 - qLog2 q)) :=
      le_trans (Int.floor_nonneg.mpr he.le) (floor_le_rne _)
    have h2 : (0:ℚ) ≤ (rne (q * 2 ^ ((prec:ℤ) - 1 - qLog2 q)) : ℚ) := by exact_mod_cast h1
    exact mul_nonneg h2 (two_zpow_pos _).le

theorem roundFP_sub_abs_le {prec : ℕ} {q : ℚ} (hq : 0 < q) :
    |roundFP prec q - q| ≤ 2 ^ (qLog2 q - prec) := by
  have hne : (2:ℚ) ≠ 0 := by norm_num
  unfold roundFP
  rw [if_neg (not_le.mpr hq)]
  have hqs : q * 2 ^ ((prec:ℤ) - 1 - qLog2 q) * 2 ^ (qLog2 q - ((prec:ℤ) - 1)) = q := by
    rw [mul_assoc, ← zpow_add₀ hne,
      show ((prec:ℤ) - 1 - qLog2 q) + (qLog2 q - ((prec:ℤ) - 1)) = 0 by ring,
      zpow_zero, mul_one]
  have key : (rne (q * 2 ^ ((prec:ℤ) - 1 - qLog2 q)) : ℚ) * 2 ^ (qLog2 q - ((prec:ℤ) - 1)) - q
      = ((rne (q * 2 ^ ((prec:ℤ) - 1 - qLog2 q)) : ℚ) - q * 2 ^ ((prec:ℤ) - 1 - qLog2 q))
        * 2 ^ (qLog2 q - ((prec:ℤ) - 1)) := by
    rw [sub_mul, hqs]
  rw [key, abs_mul, abs_of_pos (two_zpow_pos _)]
  calc |(rne (q * 2 ^ ((prec:ℤ) - 1 - qLog2 q)) : ℚ) - q * 2 ^ ((prec:ℤ) - 1 - qLog2 q)|
        * 2 ^ (qLog2 q - ((prec:ℤ) - 1))
      ≤ (1/2) * 2 ^ (qLog2 q - ((prec:ℤ) - 1)) :=
        mul_le_mul_of_nonneg_right (rne_sub_abs_le _) (two_zpow_pos _).le
    _ = 2 ^ (qLog2 q - prec) := by
        rw [show (1:ℚ)/2 = 2^(-1:ℤ) by norm_num, ← zpow_add₀ hne]
        congr 1
        ring

theorem roundFP_sub_abs_le_rel {prec : ℕ} {q : ℚ} (hq : 0 < q) :
    |roundFP prec q - q| ≤ q * 2 ^ (-(prec:ℤ)) := by
  have hne : (2:ℚ) ≠ 0 := by norm_num
  calc |roundFP prec q - q| ≤ 2 ^ (qLog2 q - prec) := roundFP_sub_abs_le hq
    _ = 2 ^ (qLog2 q) * 2 ^ (-(prec:ℤ)) := by
        rw [← zpow_add₀ hne, sub_eq_add_neg]
    _ ≤ q * 2 ^ (-(prec:ℤ)) :=
        mul_le_mul_of_nonneg_right (qLog2_spec hq).1 (two_zpow_pos _).le

theorem roundFP_eq_self {prec : ℕ} {q : ℚ} (hq : 0 < q)
    (h : ∃ m : ℤ, q * 2 ^ ((prec:ℤ) - 1 - qLog2 q) = (m : ℚ)) :
    roundFP prec q = q := by
  have hne : (2:ℚ) ≠ 0 := by norm_num
  obtain ⟨m, hm⟩ := h
  unfold roundFP
  rw [if_neg (not_le.mpr hq), hm, rne_intCast, ← hm, mul_assoc, ← zpow_add₀ hne,
    show ((prec:ℤ) - 1 - qLog2 q) + (qLog2 q - ((prec:ℤ) - 1)) = 0 by ring,
    zpow_zero, mul_one]

theorem roundFP_two_zpow {prec : ℕ} (hp : 1 ≤ prec) (k : ℤ) :
    roundFP prec (2 ^ k) = 2 ^ k := by
  have hne : (2:ℚ) ≠ 0 := by norm_num
  have he : qLog2 ((2:ℚ) ^ k) = k :=
    qLog2_unique (two_zpow_pos k) le_rfl (two_zpow_lt_iff.mpr (by omega))
  apply roundFP_eq_self (two_zpow_pos k)
  refine ⟨2 ^ (prec - 1), ?_⟩
  rw [he, ← zpow_add₀ hne]
  push_cast
  rw [← zpow_natCast (2:ℚ) (prec - 1)]
  first
  | rfl
  | · congr 1
      omega

theorem roundFP_dyadic {prec : ℕ} {m : ℕ} (k : ℤ) (hp : 1 ≤ prec) (hm : 0 < m)
    (hm2 : m ≤ 2 ^ prec) : roundFP prec ((m : ℚ) * 2 ^ k) = (m : ℚ) * 2 ^ k := by
  have hne : (2:ℚ) ≠ 0 := by norm_num
  rcases eq_or_lt_of_le hm2 with heq | hlt
  · have hval : ((m : ℚ)) * 2 ^ k = 2 ^ ((prec : ℤ) + k) := by
      rw [heq]
      push_cast
      rw [← zpow_natCast (2:ℚ) prec, ← zpow_add₀ hne]
    rw [hval, roundFP_two_zpow hp]
  · have hqpos : (0:ℚ) < (m : ℚ) * 2 ^ k :=
      mul_pos (by exact_mod_cast hm) (two_zpow_pos k)
    have hub : (m : ℚ) * 2 ^ k < 2 ^ ((prec:ℤ) + k) := by
      have hm' : (m:ℚ) < 2 ^ (prec:ℤ) := by
        rw [zpow_natCast]
        exact_mod_cast hlt
      calc (m : ℚ) * 2 ^ k < 2 ^ (prec:ℤ) * 2 ^ k :=
            mul_lt_mul_of_pos_right hm' (two_zpow_pos k)
        _ = 2 ^ ((prec:ℤ) + k) := (zpow_add₀ hne _ _).symm
    obtain ⟨l1, l2⟩ := qLog2_spec hqpos
    have he : qLog2 ((m : ℚ) * 2 ^ k) ≤ (prec:ℤ) + k - 1 := by
      by_contra hc
      push_neg at hc
      have : (2:ℚ) ^ ((prec:ℤ) + k) ≤ 2 ^ (qLog2 ((m : ℚ) * 2 ^ k)) := two_zpow_mono (by omega)
      linarith
    apply roundFP_eq_self hqpos
    refine ⟨(m : ℤ) * 2 ^ (k + ((prec:ℤ) - 1 - qLog2 ((m : ℚ) * 2 ^ k))).toNat, ?_⟩
    have hexp : 0 ≤ k + ((prec:ℤ) - 1 - qLog2 ((m : ℚ) * 2 ^ k)) := by omega
    push_cast
    rw [mul_assoc, ← zpow_add₀ hne, ← zpow_natCast (2:ℚ), Int.toNat_of_nonneg hexp]

theorem roundFP_nat {prec : ℕ} (hp : 1 ≤ prec) {n : ℕ} (hn : 0 < n) (hn2 : n ≤ 2 ^ prec) :
    roundFP prec (n : ℚ) = n := by
  have := roundFP_dyadic (0:ℤ) hp hn hn2
  simpa using this

theorem roundFP_le_two_zpow {prec : ℕ} {q : ℚ} (hq : 0 < q) :
    roundFP prec q ≤ 2 ^ (qLog2 q + 1) := by
  have hne : (2:ℚ) ≠ 0 := by norm_num
  unfold roundFP
  rw [if_neg (not_le.mpr hq)]
  obtain ⟨l1, l2⟩ := qLog2_spec hq
  have harg : q * 2 ^ ((prec:ℤ) - 1 - qLog2 q) ≤ (((2:ℤ) ^ prec : ℤ) : ℚ) := by
    have h1 : q * 2 ^ ((prec:ℤ) - 1 - qLog2 q)
        ≤ 2 ^ (qLog2 q + 1) * 2 ^ ((prec:ℤ) - 1 - qLog2 q) :=
      mul_le_mul_of_nonneg_right l2.le (two_zpow_pos _).le
    calc q * 2 ^ ((prec:ℤ) - 1 - qLog2 q)
        ≤ 2 ^ (qLog2 q + 1) * 2 ^ ((prec:ℤ) - 1 - qLog2 q) := h1
      _ = (((2:ℤ) ^ prec : ℤ) : ℚ) := by
          rw [← zpow_add₀ hne]
          push_cast
          rw [← zpow_natCast (2:ℚ) prec]
          congr 1
          ring
  have hr : rne (q * 2 ^ ((prec:ℤ) - 1 - qLog2 q)) ≤ (2:ℤ) ^ prec := by
    calc rne (q * 2 ^ ((prec:ℤ) - 1 - qLog2 q)) ≤ rne (((2:ℤ) ^ prec : ℤ) : ℚ) := rne_mono harg
      _ = (2:ℤ) ^ prec := rne_intCast _
  calc (rne (q * 2 ^ ((prec:ℤ) - 1 - qLog2 q)) : ℚ) * 2 ^ (qLog2 q - ((prec:ℤ) - 1))
      ≤ (((2:ℤ) ^ prec : ℤ) : ℚ) * 2 ^ (qLog2 q - ((prec:ℤ) - 1)) :=
        mul_le_mul_of_nonneg_right (by exact_mod_cast hr) (two_zpow_pos _).le
    _ = 2 ^ (qLog2 q + 1) := by
        push_cast
        rw [← zpow_natCast (2:ℚ) prec, ← zpow_add₀ hne]
        congr 1
        ring

theorem two_zpow_le_roundFP {prec : ℕ} (hp : 1 ≤ prec) {q : ℚ} (hq : 0 < q) :
    2 ^ (qLog2 q) ≤ roundFP prec q := by
  have hne : (2:ℚ) ≠ 0 := by norm_num
  unfold roundFP
  rw [if_neg (not_le.mpr hq)]
  obtain ⟨l1, l2⟩ := qLog2_spec hq
  have harg : (((2:ℤ) ^ (prec - 1) : ℤ) : ℚ) ≤ q * 2 ^ ((prec:ℤ) - 1 - qLog2 q) := by
    have h1 : (2:ℚ) ^ (qLog2 q) * 2 ^ ((prec:ℤ) - 1 - qLog2 q)
        ≤ q * 2 ^ ((prec:ℤ) - 1 - qLog2 q) :=
      mul_le_mul_of_nonneg_right l1 (two_zpow_pos _).le
    calc (((2:ℤ) ^ (prec - 1) : ℤ) : ℚ)
        = 2 ^ (qLog2 q) * 2 ^ ((prec:ℤ) - 1 - qLog2 q) := by
          rw [← zpow_add₀ hne]
          push_cast
          rw [← zpow_natCast (2:ℚ) (prec - 1)]
          congr 1
          omega
      _ ≤ q * 2 ^ ((prec:ℤ) - 1 - qLog2 q) := h1
  have hr : (2:ℤ) ^ (prec - 1) ≤ rne (q * 2 ^ ((prec:ℤ) - 1 - qLog2 q)) := by
    calc (2:ℤ) ^ (prec - 1) = rne (((2:ℤ) ^ (prec - 1) : ℤ) : ℚ) := (rne_intCast _).symm
      _ ≤ rne (q * 2 ^ ((prec:ℤ) - 1 - qLog2 q)) := rne_mono harg
  calc (2:ℚ) ^ (qLog2 q)
      = (((2:ℤ) ^ (prec - 1) : ℤ) : ℚ) * 2 ^ (qLog2 q - ((prec:ℤ) - 1)) := by
        push_cast
        rw [← zpow_natCast (2:ℚ) (prec - 1), ← zpow_add₀ hne]
        congr 1
        omega
    _ ≤ (rne (q * 2 ^ ((prec:ℤ) - 1 - qLog2 q)) : ℚ) * 2 ^ (qLog2 q - ((prec:ℤ) - 1)) :=
        mul_le_mul_of_nonneg_right (by exact_mod_cast hr) (two_zpow_pos _).le

theorem roundFP_pos {prec : ℕ} (hp : 1 ≤ prec) {q : ℚ} (hq : 0 < q) :
    0 < roundFP prec q :=
  lt_of_lt_of_le (two_zpow_pos _) (two_zpow_le_roundFP hp hq)

theorem roundFP_mono {prec : ℕ} (hp : 1 ≤ prec) {x y : ℚ} (hxy : x ≤ y) :
    roundFP prec x ≤ roundFP prec y := by
  rcases le_or_lt x 0 with hx | hx
  · rw [roundFP_nonpos hx]
    exact roundFP_nonneg prec y
  · have hy : 0 < y := lt_of_lt_of_le hx hxy
    have he : qLog2 x ≤ qLog2 y := by
      obtain ⟨lx1, lx2⟩ := qLog2_spec hx
      obtain ⟨ly1, ly2⟩ := qLog2_spec hy
      by_contra hc
      push_neg at hc
      have : (2:ℚ) ^ (qLog2 y + 1) ≤ 2 ^ (qLog2 x) := two_zpow_mono (by omega)
      linarith
    rcases eq_or_lt_of_le he with heq | hlt
    · unfold roundFP
      rw [if_neg (not_le.mpr hx), if_neg (not_le.mpr hy), ← heq]
      have hr : rne (x * 2 ^ ((prec:ℤ) - 1 - qLog2 x)) ≤ rne (y * 2 ^ ((prec:ℤ) - 1 - qLog2 x)) :=
        rne_mono (mul_le_mul_of_nonneg_right hxy (two_zpow_pos _).le)
      exact mul_le_mul_of_nonneg_right (by exact_mod_cast hr) (two_zpow_pos _).le
    · calc roundFP prec x ≤ 2 ^ (qLog2 x + 1) := roundFP_le_two_zpow hx
        _ ≤ 2 ^ (qLog2 y) := two_zpow_mono (by omega)
        _ ≤ roundFP prec y := two_zpow_le_roundFP hp hy

/-! ## `bits_to_bytes` (src/utils.cc lines 17–21)

```c
uint32_t bits_to_bytes(uint32_t num_bits){
    // Cast to float to avoid integer truncation
    return ceil((float)num_bits / 8);
}
```
`(float)num_bits` rounds at precision 24; the division by the exact constant
`8.0` is again a `float` operation (in fact exact, the exponent just drops
by 3); `ceil` of a `float` is exact; the result, a nonnegative integral value
`< 2^32`, converts exactly to `uint32_t`. -/

def bits_to_bytes (num_bits : ℕ) : ℕ :=
  (⌈roundFP 24 (roundFP 24 (num_bits : ℚ) / 8)⌉).toNat

theorem bits_to_bytes_eq_ceil {n : ℕ} (hn : n ≤ 2 ^ 24) :
    bits_to_bytes n = (n + 7) / 8 := by
  rcases Nat.eq_zero_or_pos n with hz | hpos
  · subst hz
    unfold bits_to_bytes
    norm_num [roundFP_nonpos]
  · unfold bits_to_bytes
    have h24 : (1:ℕ) ≤ 24 := by norm_num
    rw [roundFP_nat h24 hpos hn]
    have hdiv : (n:ℚ) / 8 = (n:ℚ) * 2 ^ (-3:ℤ) := by
      rw [div_eq_mul_inv]
      congr 1
      rw [zpow_neg]
      norm_num
    rw [hdiv, roundFP_dyadic (-3:ℤ) h24 hpos hn, ← hdiv]
    have h8 : (0:ℚ) < 8 := by norm_num
    have hle : (n:ℚ) / 8 ≤ (((n + 7) / 8 : ℕ) : ℚ) := by
      rw [div_le_iff₀ h8]
      have hnat : n ≤ (n + 7) / 8 * 8 := by omega
      exact_mod_cast hnat
    have hlt : (((n + 7) / 8 : ℕ) : ℚ) - 1 < (n:ℚ) / 8 := by
      rw [lt_div_iff₀ h8]
      have hnat : ((n + 7) / 8) * 8 < n + 8 := by omega
      have hcast : ((((n + 7) / 8) * 8 : ℕ) : ℚ) < ((n + 8 : ℕ) : ℚ) := by exact_mod_cast hnat
      push_cast at hcast ⊢
      linarith
    have hceil : ⌈(n:ℚ) / 8⌉ = (((n + 7) / 8 : ℕ) : ℤ) := by
      rw [Int.ceil_eq_iff]
      constructor
      · exact_mod_cast hlt
      · exact_mod_cast hle
    rw [hceil]
    exact Int.toNat_natCast _

/-- `(float)16777217` rounds to `16777216`: the tie at `2^24 + 1` goes to the
even neighbour `2^24`. -/
theorem roundFP_float_pow24_succ : roundFP 24 (16777217 : ℚ) = 16777216 := by
  have he : qLog2 (16777217 : ℚ) = 24 :=
    qLog2_unique (by norm_num) (by norm_num) (by norm_num)
  have hfl : ⌊(16777217 : ℚ) * 2 ^ (((24:ℕ):ℤ) - 1 - 24)⌋ = 8388608 := by
    rw [Int.floor_eq_iff]
    norm_num
  have hr : rne ((16777217 : ℚ) * 2 ^ (((24:ℕ):ℤ) - 1 - 24)) = 8388608 := by
    unfold rne
    rw [hfl]
    norm_num
  unfold roundFP
  rw [if_neg (by norm_num), he, hr]
  norm_num

theorem bits_to_bytes_pow24_succ : bits_to_bytes 16777217 = 2097152 := by
  unfold bits_to_bytes
  rw [show ((16777217 : ℕ) : ℚ) = (16777217 : ℚ) by norm_num, roundFP_float_pow24_succ]
  have h2 : (16777216 : ℚ) / 8 = ((2097152 : ℕ) : ℚ) := by norm_num
  rw [h2, roundFP_nat (by norm_num) (by norm_num) (by norm_num)]
  norm_num
  rfl

/-! ## The seed-space partition of `find_valid_seeds` (src/utils.cc lines 64–72)

```c
double seeds_per_thread = (double)UINT32_MAX / num_threads;
for (int i=0; i<num_threads; i++){
    uint32_t start_seed = i * seeds_per_thread;
    uint32_t end_seed = (i+1) * seeds_per_thread;
    ...
}
```
`UINT32_MAX = 4294967295 = 2^32 - 1` and the `int` operands convert to
`double` exactly; the division and the multiplication each round once at
precision 53.  The `uint32_t` conversion truncates toward zero; the value is
provably within range, so the conversion is defined. -/

def seeds_per_thread (num_threads : ℕ) : ℚ :=
  roundFP 53 ((4294967295 : ℚ) / (num_threads : ℚ))

/-- `(uint32_t)(i * seeds_per_thread)`: worker `i`'s start seed, which is also
worker `i - 1`'s end seed (the same expression computes both). -/
def boundary (num_threads i : ℕ) : ℕ :=
  (⌊roundFP 53 ((i : ℚ) * seeds_per_thread num_threads)⌋).toNat

theorem spt_pos {n : ℕ} (h1 : 1 ≤ n) : 0 < seeds_per_thread n := by
  have hn : (0:ℚ) < n := by exact_mod_cast h1
  exact roundFP_pos (by norm_num) (by positivity)

theorem spt_bounds {n : ℕ} (h1 : 1 ≤ n) :
    (4294967295 : ℚ) / n - 4294967295 / n * 2 ^ (-53:ℤ) ≤ seeds_per_thread n ∧
    seeds_per_thread n ≤ 4294967295 / n + 4294967295 / n * 2 ^ (-53:ℤ) := by
  have hn : (0:ℚ) < n := by exact_mod_cast h1
  have hq : (0:ℚ) < 4294967295 / n := by positivity
  have herr := @roundFP_sub_abs_le_rel 53 _ hq
  rw [abs_le] at herr
  unfold seeds_per_thread
  constructor <;> linarith [herr.1, herr.2]

theorem n_mul_spt_bounds {n : ℕ} (h1 : 1 ≤ n) :
    (4294967295 : ℚ) - 2 ^ (-21:ℤ) ≤ (n : ℚ) * seeds_per_thread n ∧
    (n : ℚ) * seeds_per_thread n ≤ 4294967295 + 2 ^ (-21:ℤ) := by
  obtain ⟨lb, ub⟩ := spt_bounds h1
  have hn : (0:ℚ) < n := by exact_mod_cast h1
  have hdiv : (n:ℚ) * (4294967295 / n) = 4294967295 := by field_simp
  have hsmall : (4294967295:ℚ) * 2 ^ (-53:ℤ) ≤ 2 ^ (-21:ℤ) := by
    have hne : (2:ℚ) ≠ 0 := by norm_num
    have hM : (4294967295:ℚ) ≤ 2 ^ (32:ℤ) := by norm_num
    calc (4294967295:ℚ) * 2 ^ (-53:ℤ) ≤ 2 ^ (32:ℤ) * 2 ^ (-53:ℤ) :=
          mul_le_mul_of_nonneg_right hM (two_zpow_pos _).le
      _ = 2 ^ (-21:ℤ) := by
          rw [← zpow_add₀ hne]
          norm_num
  constructor
  · have hml := mul_le_mul_of_nonneg_left lb hn.le
    rw [mul_sub, hdiv, ← mul_assoc, hdiv] at hml
    linarith
  · have hmu := mul_le_mul_of_nonneg_left ub hn.le
    rw [mul_add, hdiv, ← mul_assoc, hdiv] at hmu
    linarith

/-- Each boundary value `i * seeds_per_thread` (for `i ≤ n`) carries an
absolute rounding error of at most `2^-21`. -/
theorem bQ_err {n i : ℕ} (h1 : 1 ≤ n) (hi : i ≤ n) :
    |roundFP 53 ((i:ℚ) * seeds_per_thread n) - (i:ℚ) * seeds_per_thread n|
      ≤ 2 ^ (-21:ℤ) := by
  rcases Nat.eq_zero_or_pos i with rfl | hip
  · simp [roundFP_nonpos]
    exact (two_zpow_pos _).le
  · have hiQ : (0:ℚ) < i := by exact_mod_cast hip
    have hq : 0 < (i:ℚ) * seeds_per_thread n := mul_pos hiQ (spt_pos h1)
    have herr := @roundFP_sub_abs_le_rel 53 _ hq
    have hle : (i:ℚ) * seeds_per_thread n ≤ (n:ℚ) * seeds_per_thread n :=
      mul_le_mul_of_nonneg_right (by exact_mod_cast hi) (spt_pos h1).le
    have hub2 : (n:ℚ) * seeds_per_thread n ≤ 2 ^ (32:ℤ) := by
      have := (n_mul_spt_bounds h1).2
      have h21 : (2:ℚ) ^ (-21:ℤ) ≤ 1 := by
        calc (2:ℚ) ^ (-21:ℤ) ≤ 2 ^ (0:ℤ) := two_zpow_mono (by omega)
          _ = 1 := zpow_zero 2
      have h32 : (4294967296:ℚ) = 2 ^ (32:ℤ) := by norm_num
      linarith
    have hne : (2:ℚ) ≠ 0 := by norm_num
    calc |roundFP 53 ((i:ℚ) * seeds_per_thread n) - (i:ℚ) * seeds_per_thread n|
        ≤ (i:ℚ) * seeds_per_thread n * 2 ^ (-(53:ℕ):ℤ) := herr
      _ ≤ 2 ^ (32:ℤ) * 2 ^ (-(53:ℕ):ℤ) :=
          mul_le_mul_of_nonneg_right (le_trans hle hub2) (two_zpow_pos _).le
      _ = 2 ^ (-21:ℤ) := by
          rw [← zpow_add₀ hne]
          norm_num

theorem boundary_zero (n : ℕ) : boundary n 0 = 0 := by
  unfold boundary
  norm_num [roundFP_nonpos]

theorem boundaryQ_nonneg (n i : ℕ) :
    0 ≤ roundFP 53 ((i:ℚ) * seeds_per_thread n) := roundFP_nonneg _ _

theorem boundary_mono {n : ℕ} (h1 : 1 ≤ n) {i j : ℕ} (hij : i ≤ j) :
    boundary n i ≤ boundary n j := by
  unfold boundary
  have hmul : (i:ℚ) * seeds_per_thread n ≤ (j:ℚ) * seeds_per_thread n :=
    mul_le_mul_of_nonneg_right (by exact_mod_cast hij) (spt_pos h1).le
  have := Int.floor_mono (@roundFP_mono 53 (by norm_num) _ _ hmul)
  omega

/-- Consecutive boundaries are strictly separated (by more than one seed), so
no worker's range is empty: the error `2 · 2^-21` is far smaller than
`seeds_per_thread ≥ (2^32-1)/(2^31-1) > 2`. -/
theorem boundary_strict {n i : ℕ} (h1 : 1 ≤ n) (h2 : n ≤ 2 ^ 31 - 1)
    (hi : i < n) : boundary n i < boundary n (i + 1) := by
  have hc53 : (2:ℚ) ^ (-53:ℤ) = 1/9007199254740992 := by norm_num
  have hc21 : (2:ℚ) ^ (-21:ℤ) = 1/2097152 := by norm_num
  have e1 := abs_le.mp (bQ_err h1 (le_of_lt hi))
  have e2 := abs_le.mp (bQ_err h1 (Nat.succ_le_of_lt hi))
  rw [hc21] at e1 e2
  have hn : (0:ℚ) < n := by exact_mod_cast h1
  have hspt2 : (2:ℚ) - 2 * (1/9007199254740992) ≤ seeds_per_thread n := by
    have hMn : (2:ℚ) ≤ 4294967295 / n := by
      rw [le_div_iff₀ hn]
      exact_mod_cast (by omega : 2 * n ≤ 4294967295)
    obtain ⟨lb, _⟩ := spt_bounds h1
    rw [hc53] at lb
    -- (M/n) - (M/n)·ε ≥ 2 - 2·ε  because (M/n)(1 - ε) ≥ 2(1 - ε)
    have key : (2:ℚ) * (1 - 1/9007199254740992)
        ≤ 4294967295 / n * (1 - 1/9007199254740992) :=
      mul_le_mul_of_nonneg_right hMn (by norm_num)
    nlinarith [key, lb]
  push_cast at e2
  have hgap : roundFP 53 ((i:ℚ) * seeds_per_thread n) + 1
      ≤ roundFP 53 (((i:ℚ) + 1) * seeds_per_thread n) := by
    nlinarith [e1.1, e1.2, e2.1, e2.2, hspt2]
  unfold boundary
  have hfl : ⌊roundFP 53 ((i:ℚ) * seeds_per_thread n)⌋ + 1
      ≤ ⌊roundFP 53 (((i+1:ℕ):ℚ) * seeds_per_thread n)⌋ := by
    have h1' : ((⌊roundFP 53 ((i:ℚ) * seeds_per_thread n)⌋ + 1 : ℤ) : ℚ)
        ≤ roundFP 53 (((i+1:ℕ):ℚ) * seeds_per_thread n) := by
      push_cast
      have := Int.floor_le (roundFP 53 ((i:ℚ) * seeds_per_thread n))
      linarith
    exact Int.le_floor.mpr h1'
  have hnn : (0:ℤ) ≤ ⌊roundFP 53 ((i:ℚ) * seeds_per_thread n)⌋ :=
    Int.floor_nonneg.mpr (boundaryQ_nonneg n i)
  omega

/-- The last boundary `(uint32_t)(num_threads * seeds_per_thread)` is at most
`2^32 - 1`: seed `2^32 - 1` is below no worker's end. -/
theorem boundary_last_le {n : ℕ} (h1 : 1 ≤ n) : boundary n n ≤ 4294967295 := by
  have hc21 : (2:ℚ) ^ (-21:ℤ) = 1/2097152 := by norm_num
  have e := abs_le.mp (bQ_err h1 le_rfl)
  have hub := (n_mul_spt_bounds h1).2
  rw [hc21] at e hub
  have hlt : roundFP 53 ((n:ℚ) * seeds_per_thread n) < ((4294967296:ℤ) : ℚ) := by
    push_cast
    linarith [e.2, hub]
  have := Int.floor_lt.mpr hlt
  unfold boundary
  omega

/-- The last boundary is at least `2^32 - 2`. -/
theorem boundary_last_ge {n : ℕ} (h1 : 1 ≤ n) : 4294967294 ≤ boundary n n := by
  have hc21 : (2:ℚ) ^ (-21:ℤ) = 1/2097152 := by norm_num
  have e := abs_le.mp (bQ_err h1 le_rfl)
  have hlb := (n_mul_spt_bounds h1).1
  rw [hc21] at e hlb
  have hge : ((4294967294:ℤ) : ℚ) ≤ roundFP 53 ((n:ℚ) * seeds_per_thread n) := by
    push_cast
    linarith [e.1, hlb]
  have := Int.le_floor.mpr hge
  unfold boundary
  omega

theorem seeds_per_thread_one : seeds_per_thread 1 = 4294967295 := by
  unfold seeds_per_thread
  rw [Nat.cast_one, div_one,
    show (4294967295:ℚ) = ((4294967295:ℕ):ℚ) by norm_num]
  exact roundFP_nat (by norm_num) (by norm_num) (by norm_num)

theorem boundary_one_one : boundary 1 1 = 4294967295 := by
  unfold boundary
  rw [Nat.cast_one, one_mul, seeds_per_thread_one,
    show (4294967295:ℚ) = ((4294967295:ℕ):ℚ) by norm_num,
    roundFP_nat (by norm_num) (by norm_num) (by norm_num),
    Int.floor_natCast]
  rfl

/-- Any point below the top boundary of a monotone fence starting at 0 falls
into some interval. -/
theorem exists_interval_index {b : ℕ → ℕ} (hb0 : b 0 = 0) :
    ∀ n s, s < b n → ∃ i, i < n ∧ b i ≤ s ∧ s < b (i + 1) := by
  intro n
  induction n with
  | zero => intro s hs; omega
  | succ m ih =>
    intro s hs
    rcases lt_or_le s (b m) with h | h
    · obtain ⟨i, hi1, hi2, hi3⟩ := ih s h
      exact ⟨i, by omega, hi2, hi3⟩
    · exact ⟨m, by omega, h, hs⟩

/-! ## `crack_seeds` and `find_valid_seeds` (src/utils.cc lines 25–92) -/

/-- Iteration count of the do-while loop
`do { ... } while (++seed != end_seed)` starting at `start_seed`: the
`uint32_t` seed wraps at `2^32`, and a worker with `start_seed == end_seed`
runs through all `2^32` seeds before the exit test succeeds. -/
def rangeLen (start_seed end_seed : ℕ) : ℕ :=
  if (end_seed + 4294967296 - start_seed) % 4294967296 = 0 then 4294967296
  else (end_seed + 4294967296 - start_seed) % 4294967296

/-- The seeds one worker tests, in test order (wrapping modulo `2^32`). -/
def testedSeeds (start_seed end_seed : ℕ) : List ℕ :=
  (List.range' start_seed (rangeLen start_seed end_seed)).map (fun s => s % 4294967296)

/-- The `valid_seeds` list built by `crack_seeds` (utils.cc lines 25–47):
every seed whose 24-bit magic check passes is appended, in test order.
`magicOk` stands for `Extractor(bits, seed, true).check_magic()`; the
`Extractor` class lies outside these sources, so it is modelled from the spec
as an arbitrary boolean predicate of the seed for the given BitSource. -/
def crack_seeds (magicOk : ℕ → Bool) (start_seed end_seed : ℕ) : List ℕ :=
  (testedSeeds start_seed end_seed).filter magicOk

/-- `find_valid_seeds` (utils.cc lines 51–92): partition the seed space with
the float boundaries, run one worker per range, and merge the per-worker
result lists in worker-index order. -/
def find_valid_seeds (magicOk : ℕ → Bool) (num_threads : ℕ) : List ℕ :=
  (List.range num_threads).flatMap
    (fun i => crack_seeds magicOk (boundary num_threads i) (boundary num_threads (i + 1)))

theorem testedSeeds_no_wrap {lo hi : ℕ} (hlt : lo < hi) (hhi : hi ≤ 4294967295) :
    testedSeeds lo hi = List.range' lo (hi - lo) := by
  unfold testedSeeds rangeLen
  have hmod : (hi + 4294967296 - lo) % 4294967296 = hi - lo := by omega
  rw [hmod, if_neg (by omega)]
  have hmem : ∀ a ∈ List.range' lo (hi - lo), a % 4294967296 = a := by
    intro a ha
    rw [List.mem_range'_1] at ha
    omega
  calc (List.range' lo (hi - lo)).map (fun s => s % 4294967296)
      = (List.range' lo (hi - lo)).map (fun s => s) := List.map_congr_left hmem
    _ = List.range' lo (hi - lo) := List.map_id' _

theorem crack_seeds_sorted (magicOk : ℕ → Bool) {lo hi : ℕ} (hlt : lo < hi)
    (hhi : hi ≤ 4294967295) :
    List.Pairwise (· < ·) (crack_seeds magicOk lo hi) := by
  unfold crack_seeds
  rw [testedSeeds_no_wrap hlt hhi]
  exact (List.pairwise_lt_range' lo (hi - lo)).filter _

theorem crack_seeds_mem {magicOk : ℕ → Bool} {lo hi s : ℕ} (hlt : lo < hi)
    (hhi : hi ≤ 4294967295) (hs : s ∈ crack_seeds magicOk lo hi) :
    lo ≤ s ∧ s < hi := by
  unfold crack_seeds at hs
  rw [testedSeeds_no_wrap hlt hhi] at hs
  have hmem := List.mem_of_mem_filter hs
  rw [List.mem_range'_1] at hmem
  omega

theorem find_valid_prefix_sorted (magicOk : ℕ → Bool) {n : ℕ} (h1 : 1 ≤ n)
    (h2 : n ≤ 2 ^ 31 - 1) :
    ∀ k, k ≤ n →
      List.Pairwise (· < ·) ((List.range k).flatMap
        (fun i => crack_seeds magicOk (boundary n i) (boundary n (i + 1)))) ∧
      (∀ s ∈ (List.range k).flatMap
        (fun i => crack_seeds magicOk (boundary n i) (boundary n (i + 1))),
        s < boundary n k) := by
  intro k
  induction k with
  | zero =>
    intro _
    simp
  | succ m ih =>
    intro hk
    obtain ⟨ihp, ihb⟩ := ih (by omega)
    rw [List.range_succ, List.flatMap_append, List.flatMap_cons, List.flatMap_nil,
      List.append_nil]
    have hmlt : boundary n m < boundary n (m + 1) := boundary_strict h1 h2 (by omega)
    have hmle : boundary n (m + 1) ≤ 4294967295 :=
      le_trans (boundary_mono h1 hk) (boundary_last_le h1)
    constructor
    · rw [List.pairwise_append]
      refine ⟨ihp, crack_seeds_sorted magicOk hmlt hmle, ?_⟩
      intro x hx y hy
      have hxb := ihb x hx
      have hyb := (crack_seeds_mem hmlt hmle hy).1
      omega
    · intro s hs
      rw [List.mem_append] at hs
      rcases hs with hs | hs
      · have hb := ihb s hs
        omega
      · exact (crack_seeds_mem hmlt hmle hs).2

/-! ## Progress counter of `crack_seeds` (src/utils.cc lines 38–46) -/

/-- Progress counter value after `j` iterations of the scan loop: the counter
is bumped by 1,000,000 exactly at iterations whose offset `seed - start_seed`
satisfies `(seed - start_seed) % 1000000 == 999999`. -/
def progressAt : ℕ → ℕ
  | 0 => 0
  | j + 1 => progressAt j + (if j % 1000000 = 999999 then 1000000 else 0)

/-- The final assignment `progress_counter = end_seed - start_seed`
(utils.cc line 46), in `uint32_t` arithmetic. -/
def progressFinal (start_seed end_seed : ℕ) : ℕ :=
  (end_seed + 4294967296 - start_seed) % 4294967296

theorem progressAt_eq (j : ℕ) : progressAt j = 1000000 * (j / 1000000) := by
  induction j with
  | zero => rfl
  | succ m ih =>
    rw [progressAt, ih]
    by_cases h : m % 1000000 = 999999
    · rw [if_pos h]
      have hd : (m + 1) / 1000000 = m / 1000000 + 1 := by omega
      rw [hd]
      ring
    · rw [if_neg h]
      have hd : (m + 1) / 1000000 = m / 1000000 := by omega
      rw [hd, add_zero]

/-- **C9.**  Each worker's progress counter is monotonically non-decreasing
during its scan, never exceeds the worker's assigned range size
`end_seed - start_seed` at any point, and at range exhaustion the final
assignment sets it to exactly the range size, regardless of the coarse
once-per-1,000,000-seeds batching. -/
theorem c9_progress {n i : ℕ} (h1 : 1 ≤ n) (h2 : n ≤ 2 ^ 31 - 1) (hi : i < n) :
    (∀ j, progressAt j ≤ progressAt (j + 1)) ∧
    (∀ j, j ≤ boundary n (i + 1) - boundary n i →
        progressAt j ≤ boundary n (i + 1) - boundary n i) ∧
    progressAt (boundary n (i + 1) - boundary n i)
        ≤ progressFinal (boundary n i) (boundary n (i + 1)) ∧
    progressFinal (boundary n i) (boundary n (i + 1))
        = boundary n (i + 1) - boundary n i := by
  have hmlt : boundary n i < boundary n (i + 1) := boundary_strict h1 h2 hi
  have hmle : boundary n (i + 1) ≤ 4294967295 :=
    le_trans (boundary_mono h1 hi) (boundary_last_le h1)
  have hfin : progressFinal (boundary n i) (boundary n (i + 1))
      = boundary n (i + 1) - boundary n i := by
    unfold progressFinal
    omega
  refine ⟨?_, ?_, ?_, hfin⟩
  · intro j
    rw [progressAt_eq, progressAt_eq]
    have : j / 1000000 ≤ (j + 1) / 1000000 := by omega
    omega
  · intro j hj
    rw [progressAt_eq]
    have : 1000000 * (j / 1000000) ≤ j := by omega
    omega
  · rw [hfin, progressAt_eq]
    omega

/-- Closed witness for `c9_progress` at `workerCount = 1`, worker 0. -/
theorem c9_progress_witness :
    (∀ j, progressAt j ≤ progressAt (j + 1)) ∧
    (∀ j, j ≤ boundary 1 (0 + 1) - boundary 1 0 →
        progressAt j ≤ boundary 1 (0 + 1) - boundary 1 0) ∧
    progressAt (boundary 1 (0 + 1) - boundary 1 0)
        ≤ progressFinal (boundary 1 0) (boundary 1 (0 + 1)) ∧
    progressFinal (boundary 1 0) (boundary 1 (0 + 1))
        = boundary 1 (0 + 1) - boundary 1 0 :=
  c9_progress (by norm_num) (by norm_num) (by norm_num)

/-- **C1, counterexample.**  The claim "every seed in `[0, 2^32)` lies in
exactly one worker's `[start_seed, end_seed)` range" fails already for
`workerCount = 1`: the single worker's range is `[0, 4294967295)` because
`seeds_per_thread` is computed from `UINT32_MAX = 2^32 - 1` (not `2^32`), so
seed `4294967295 = 2^32 - 1` lies in no worker's range and is never tested. -/
theorem c1_counterexample :
    ¬ (∀ s : ℕ, s < 2 ^ 32 →
        ∃ i : ℕ, i < 1 ∧ boundary 1 i ≤ s ∧ s < boundary 1 (i + 1)) := by
  intro h
  obtain ⟨i, hi1, hi2, hi3⟩ := h 4294967295 (by norm_num)
  have hz : i = 0 := by omega
  subst hz
  norm_num at hi3
  rw [boundary_one_one] at hi3
  omega

/-- **C1 (amended).**  For every `workerCount` in `[1, 2^31)` the float-based
partition is pairwise disjoint and consecutive: every seed below `2^32 - 2`
lies in exactly one worker's `[start_seed, end_seed)` range.  But the top
seed `2^32 - 1` lies in no worker's range (the boundaries are computed from
`UINT32_MAX = 2^32 - 1`, so the partition covers at most `[0, 2^32 - 1)`),
hence full coverage of the 32-bit seed space fails. -/
theorem c1_amended {n : ℕ} (h1 : 1 ≤ n) :
    (∀ s : ℕ, s < 2 ^ 32 - 2 →
      ∃! i : ℕ, i < n ∧ boundary n i ≤ s ∧ s < boundary n (i + 1)) ∧
    (∀ i : ℕ, i < n →
      ¬ (boundary n i ≤ 2 ^ 32 - 1 ∧ 2 ^ 32 - 1 < boundary n (i + 1))) := by
  constructor
  · intro s hs
    have hcov : s < boundary n n := by
      have := boundary_last_ge h1
      omega
    obtain ⟨i, hi1, hi2, hi3⟩ := exists_interval_index (boundary_zero n) n s hcov
    refine ⟨i, ⟨hi1, hi2, hi3⟩, ?_⟩
    rintro j ⟨hj1, hj2, hj3⟩
    by_contra hne
    rcases Nat.lt_or_ge j i with hlt | hge
    · have hm : boundary n (j + 1) ≤ boundary n i := boundary_mono h1 (by omega)
      omega
    · have hgt : i < j := by omega
      have hm : boundary n (i + 1) ≤ boundary n j := boundary_mono h1 (by omega)
      omega
  · rintro i hi ⟨hle, hlt⟩
    have hm : boundary n (i + 1) ≤ boundary n n := boundary_mono h1 (by omega)
    have := boundary_last_le h1
    omega

/-- Closed witness for `c1_amended` at `workerCount = 1`. -/
theorem c1_amended_witness :
    (∀ s : ℕ, s < 2 ^ 32 - 2 →
      ∃! i : ℕ, i < 1 ∧ boundary 1 i ≤ s ∧ s < boundary 1 (i + 1)) ∧
    (∀ i : ℕ, i < 1 →
      ¬ (boundary 1 i ≤ 2 ^ 32 - 1 ∧ 2 ^ 32 - 1 < boundary 1 (i + 1))) :=
  c1_amended (by norm_num)

/-- **C2.**  For every `workerCount ≥ 1` (a C `int`, so below `2^31`) and
every BitSource (arbitrary magic predicate `magicOk`), the merged seed list
returned by `find_valid_seeds` — per-worker result lists concatenated in
worker-index order — is sorted in strictly ascending seed order and contains
no duplicate seeds, even though no explicit sort is performed. -/
theorem c2_sorted_nodup (magicOk : ℕ → Bool) {n : ℕ} (h1 : 1 ≤ n)
    (h2 : n ≤ 2 ^ 31 - 1) :
    List.Sorted (· < ·) (find_valid_seeds magicOk n) ∧
    (find_valid_seeds magicOk n).Nodup := by
  have h := (find_valid_prefix_sorted magicOk h1 h2 n le_rfl).1
  unfold find_valid_seeds
  exact ⟨h, h.imp ne_of_lt⟩

/-- Closed witness for `c2_sorted_nodup` at `workerCount = 1` and the
all-false magic predicate. -/
theorem c2_sorted_nodup_witness :
    List.Sorted (· < ·) (find_valid_seeds (fun _ => false) 1) ∧
    (find_valid_seeds (fun _ => false) 1).Nodup :=
  c2_sorted_nodup (fun _ => false) (by norm_num) (by norm_num)

/-- **C6, counterexample.**  `bits_to_bytes` computes through
single-precision `float`, so the claim `bits_to_bytes n = ⌈n/8⌉` for *every*
`n ≥ 0` fails: at `n = 2^24 + 1 = 16777217` the float conversion rounds the
input down to `2^24` and the function returns `2097152`, while
`⌈16777217 / 8⌉ = 2097153`. -/
theorem c6_counterexample :
    bits_to_bytes 16777217 = 2097152 ∧ (16777217 + 7) / 8 = 2097153 :=
  ⟨bits_to_bytes_pow24_succ, by norm_num⟩

/-- **C6 (amended).**  For every `n ≤ 2^24` (where the `float` computation is
exact), `bits_to_bytes n = ⌈n/8⌉ = (n+7)/8`; in particular
`bits_to_bytes 0 = 0`, `bits_to_bytes 1 = 1`, `bits_to_bytes 8 = 1` and
`bits_to_bytes 9 = 2`. -/
theorem c6_amended :
    (∀ n : ℕ, n ≤ 2 ^ 24 → bits_to_bytes n = (n + 7) / 8) ∧
    bits_to_bytes 0 = 0 ∧ bits_to_bytes 1 = 1 ∧
    bits_to_bytes 8 = 1 ∧ bits_to_bytes 9 = 2 := by
  refine ⟨fun n hn => bits_to_bytes_eq_ceil hn, ?_, ?_, ?_, ?_⟩ <;>
    rw [bits_to_bytes_eq_ceil (by norm_num)]

/-- Closed witness for `c6_amended` at `n = 16`. -/
theorem c6_amended_witness : bits_to_bytes 16 = (16 + 7) / 8 :=
  c6_amended.1 16 (by norm_num)

/-! ## `shift_bits` (src/utils.cc lines 96–105)

```c
void shift_bits(uint8_t* bytes, uint64_t num_bits){
    for (int i=0; i<num_bits-1; i++){
        int next_bit = (bytes[(i+1)/8] >> (i+1) % 8) & 1U;
        bytes[i/8] ^= (-next_bit ^ bytes[i/8]) & (1UL << i % 8);
    }
}
```
The buffer is a list of bytes; bit `i` of the buffer is bit `i % 8` of byte
`i / 8` (LSB-first, the convention this very loop defines).  `-next_bit` is 0
or an all-ones pattern; under the 8-bit mask only its low 8 bits matter, so
it is modelled as 0 or 255.  (A call with `num_bits = 0` makes the C loop
bound `num_bits - 1` wrap to `2^64 - 1` and is undefined; all theorems assume
`num_bits ≥ 1`.) -/

def getBit (bytes : List ℕ) (i : ℕ) : Bool :=
  (bytes.getD (i / 8) 0).testBit (i % 8)

/-- `int next_bit = (bytes[(i+1)/8] >> (i+1) % 8) & 1U;` -/
def next_bit (bytes : List ℕ) (i : ℕ) : ℕ :=
  (bytes.getD ((i + 1) / 8) 0 >>> ((i + 1) % 8)) &&& 1

/-- One iteration of the loop body at index `i`:
`bytes[i/8] ^= (-next_bit ^ bytes[i/8]) & (1UL << i % 8);` -/
def shiftStep (bytes : List ℕ) (i : ℕ) : List ℕ :=
  bytes.set (i / 8)
    ((bytes.getD (i / 8) 0) ^^^
      (((if next_bit bytes i = 0 then 0 else 255) ^^^ bytes.getD (i / 8) 0) &&&
        (1 <<< (i % 8))))

def shift_bits (bytes : List ℕ) (num_bits : ℕ) : List ℕ :=
  (List.range (num_bits - 1)).foldl shiftStep bytes

theorem next_bit_eq (bytes : List ℕ) (i : ℕ) :
    next_bit bytes i = if getBit bytes (i + 1) then 1 else 0 := by
  unfold next_bit getBit
  rw [Nat.and_one_is_mod, Nat.shiftRight_eq_div_pow, Nat.testBit_to_div_mod]
  rcases Nat.mod_two_eq_zero_or_one (bytes.getD ((i + 1) / 8) 0 / 2 ^ ((i + 1) % 8)) with h | h <;>
    rw [h] <;> norm_num

/-- The C idiom `old ^ ((neg ^ old) & (1 << q))` stores bit `q` of `neg` into
bit `q` of `old` and leaves every other bit of `old` unchanged. -/
theorem xor_mask_testBit (old neg q p : ℕ) :
    (old ^^^ ((neg ^^^ old) &&& 2 ^ q)).testBit p
      = if p = q then neg.testBit p else old.testBit p := by
  rw [Nat.testBit_xor, Nat.testBit_and, Nat.testBit_xor, Nat.testBit_two_pow]
  by_cases h : p = q
  · subst h
    rw [if_pos rfl]
    have hd : decide (p = p) = true := by simp
    rw [hd]
    cases hold : old.testBit p <;> cases hneg : neg.testBit p <;> simp [hold, hneg]
  · have hd : decide (q = p) = false := decide_eq_false (fun hq => h hq.symm)
    rw [if_neg h, hd]
    cases hold : old.testBit p <;> simp [hold]

theorem length_shiftStep (bytes : List ℕ) (i : ℕ) :
    (shiftStep bytes i).length = bytes.length := by
  unfold shiftStep
  exact List.length_set bytes _ _

theorem getBit_of_set (bytes : List ℕ) (m v j : ℕ) (hm : m < bytes.length) :
    getBit (bytes.set m v) j
      = if j / 8 = m then v.testBit (j % 8) else getBit bytes j := by
  unfold getBit
  by_cases hb : j / 8 = m
  · rw [if_pos hb, hb, List.getD_eq_getElem?_getD, List.getElem?_set_self hm,
      Option.getD_some]
  · rw [if_neg hb, List.getD_eq_getElem?_getD, List.getElem?_set_ne (fun h => hb h.symm),
      ← List.getD_eq_getElem?_getD]

theorem getBit_shiftStep (bytes : List ℕ) (i j : ℕ) (hw : i / 8 < bytes.length) :
    getBit (shiftStep bytes i) j
      = if j = i then getBit bytes (i + 1) else getBit bytes j := by
  have hstep : shiftStep bytes i
      = bytes.set (i / 8)
          ((bytes.getD (i / 8) 0) ^^^
            (((if getBit bytes (i + 1) then 255 else 0) ^^^ bytes.getD (i / 8) 0) &&&
              2 ^ (i % 8))) := by
    unfold shiftStep
    rw [next_bit_eq, show (1 <<< (i % 8)) = 2 ^ (i % 8) by rw [Nat.shiftLeft_eq, one_mul]]
    cases hnx : getBit bytes (i + 1) <;> simp [hnx]
  rw [hstep, getBit_of_set _ _ _ _ hw, xor_mask_testBit]
  by_cases hb : j / 8 = i / 8
  · rw [if_pos hb]
    by_cases hp : j % 8 = i % 8
    · have hij : j = i := by omega
      subst hij
      rw [if_pos hp, if_pos rfl]
      cases hnx : getBit bytes (j + 1)
      · simp [hnx, Nat.zero_testBit]
      · have h255 : Nat.testBit 255 (j % 8) = true := by
          rw [show (255:ℕ) = 2 ^ 8 - 1 by norm_num, Nat.testBit_two_pow_sub_one]
          simp [Nat.mod_lt j (by norm_num : (0:ℕ) < 8)]
        simp [h255]
    · rw [if_neg hp, if_neg (by omega : j ≠ i)]
      unfold getBit
      rw [hb]
  · rw [if_neg hb, if_neg (by omega : j ≠ i)]

theorem foldl_shiftStep_spec (bytes : List ℕ) :
    ∀ k, k + 1 ≤ 8 * bytes.length →
      (∀ i, i < k →
        getBit ((List.range k).foldl shiftStep bytes) i = getBit bytes (i + 1)) ∧
      (∀ i, k ≤ i →
        getBit ((List.range k).foldl shiftStep bytes) i = getBit bytes i) ∧
      ((List.range k).foldl shiftStep bytes).length = bytes.length := by
  intro k
  induction k with
  | zero =>
    intro _
    exact ⟨fun i hi => absurd hi (by omega), fun i _ => rfl, rfl⟩
  | succ m ih =>
    intro hk
    obtain ⟨ih1, ih2, ihlen⟩ := ih (by omega)
    rw [List.range_succ, List.foldl_append, List.foldl_cons, List.foldl_nil]
    have hw : m / 8 < ((List.range m).foldl shiftStep bytes).length := by
      rw [ihlen]
      omega
    refine ⟨?_, ?_, ?_⟩
    · intro i hi
      rw [getBit_shiftStep _ m i hw]
      rcases Nat.lt_or_ge i m with h | h
      · rw [if_neg (by omega), ih1 i h]
      · have him : i = m := by omega
        subst him
        rw [if_pos rfl, ih2 (i + 1) (by omega)]
    · intro i hi
      rw [getBit_shiftStep _ m i hw, if_neg (by omega), ih2 i (by omega)]
    · rw [length_shiftStep, ihlen]

/-- **C5.**  After `shift_bits(buffer, totalBits)`, every bit position `i` in
`[0, totalBits-2]` holds the original (pre-call) bit `i+1`; bit position
`totalBits-1` retains its original value (it is read but never written); and
bits of the buffer beyond position `totalBits-1` are unchanged. -/
theorem c5_shift_bits (bytes : List ℕ) (num_bits : ℕ) (h1 : 1 ≤ num_bits)
    (h2 : num_bits ≤ 8 * bytes.length) :
    (∀ i, i + 1 ≤ num_bits - 1 →
      getBit (shift_bits bytes num_bits) i = getBit bytes (i + 1)) ∧
    getBit (shift_bits bytes num_bits) (num_bits - 1)
      = getBit bytes (num_bits - 1) ∧
    (∀ i, num_bits - 1 < i → getBit (shift_bits bytes num_bits) i = getBit bytes i) := by
  unfold shift_bits
  obtain ⟨s1, s2, _⟩ := foldl_shiftStep_spec bytes (num_bits - 1) (by omega)
  exact ⟨fun i hi => s1 i (by omega), s2 _ le_rfl, fun i hi => s2 i (by omega)⟩

/-- Closed witness for `c5_shift_bits` on a one-byte buffer. -/
theorem c5_shift_bits_witness :
    (∀ i, i + 1 ≤ 8 - 1 → getBit (shift_bits [2] 8) i = getBit [2] (i + 1)) ∧
    getBit (shift_bits [2] 8) (8 - 1) = getBit [2] (8 - 1) ∧
    (∀ i, 8 - 1 < i → getBit (shift_bits [2] 8) i = getBit [2] i) :=
  c5_shift_bits [2] 8 (by norm_num) (by decide)

/-! ## Payload decoder and candidate filter (src/utils.cc lines 109–231)

The bit-extraction class `Extractor` is declared outside these sources.
Modelled from the spec: constructed from `(BitSource, Seed, magicOnly)`, it
exposes `get_data(dest, numBits)` which sequentially delivers the next
`numBits` seed-derived bits into the destination buffer.  The seed-derived
bit sequence is an abstract stream `σ : ℕ → Bool` (for `extract_files`, a
family `streams : seed → ℕ → Bool`), and a session is the stream plus a read
position.  `get_data` packs the delivered bits LSB-first within successive
bytes — the convention under which `payload[0] & 1` (utils.cc line 160) is
the first delivered bit and `shift_bits` realigns the stream — and
multi-bit header fields read into integers carry their first delivered bit
in the least significant position.  Destination buffers are allocated at a
covering byte count; buffer bits beyond `numBits` (uninitialized in C) are
modelled as zero.

zlib's `uncompress(dest, &destLen, src, srcLen)` is likewise outside these
sources; modelled from the spec as an abstract oracle
`unc : destCap → src → srcLen → (status, dest contents, destLen out)`.
utils.cc line 147 discards the returned status. -/

/-- Pack bits `f 0, f 1, ..., f (k-1)` LSB-first into one natural number. -/
def packBits (f : ℕ → Bool) : ℕ → ℕ
  | 0 => 0
  | k + 1 => (if f 0 then 1 else 0) + 2 * packBits (fun j => f (j + 1)) k

/-- Modelled from the spec: the buffer `get_data(dest, numBits)` fills, when
`dest` was allocated with `destBytes` bytes. -/
def getData (σ : ℕ → Bool) (pos numBits destBytes : ℕ) : List ℕ :=
  (List.range destBytes).map (fun b =>
    packBits (fun j => decide (8 * b + j < numBits) && σ (pos + (8 * b + j))) 8)

/-- A bit-extraction session: stream plus read position. -/
structure Extractor where
  stream : ℕ → Bool
  pos : ℕ

/-- `get_data` into a byte buffer of `destBytes` bytes. -/
def Extractor.get_data (e : Extractor) (numBits destBytes : ℕ) :
    List ℕ × Extractor :=
  (getData e.stream e.pos numBits destBytes, ⟨e.stream, e.pos + numBits⟩)

/-- `get_data` into an integer field (LSB-first, as the byte packing). -/
def Extractor.get_num (e : Extractor) (numBits : ℕ) : ℕ × Extractor :=
  (packBits (fun j => e.stream (e.pos + j)) numBits, ⟨e.stream, e.pos + numBits⟩)

/-- `utils.hh`'s file-metadata struct (fields as used by utils.cc). -/
structure FileInfo where
  magic_bytes : ℕ
  version : ℕ
  enc_algo : ℕ
  enc_mode : ℕ
  payload_size : ℕ

/-- The plaintext-payload fields of `ExtractedData` (as used by utils.cc). -/
structure FileData where
  is_compressed : Bool
  uncompressed_size : ℕ
  has_checksum : Bool
  checksum : ℕ
  filename : List ℕ
  file_contents : List ℕ

/-- One extracted record.  Numeric fields that utils.cc leaves unassigned are
uninitialized in C; they are modelled as zero / empty. -/
structure ExtractedData where
  is_encrypted : Bool
  info : FileInfo
  encrypted_payload : List ℕ
  data : FileData

/-- `x - 1` in `uint32_t` arithmetic. -/
def u32sub1 (x : ℕ) : ℕ := (x + 4294967295) % 4294967296

/-- `x - 2` in `uint32_t` arithmetic. -/
def u32sub2 (x : ℕ) : ℕ := (x + 4294967294) % 4294967296

/-- `((uint32_t*)payload)[0]` (utils.cc line 170): reinterpret the first four
payload bytes as a 32-bit integer.  On the little-endian platforms this code
targets that is low-byte-first — the spec's "low-byte semantics". -/
def le32 (bytes : List ℕ) : ℕ :=
  bytes.getD 0 0 + 256 * bytes.getD 1 0 + 65536 * bytes.getD 2 0
    + 16777216 * bytes.getD 3 0

/-- `extract_payload` (utils.cc lines 109–189), parametrized by the
`uncompress` oracle `unc`.  The pointer difference at line 183 is computed in
`uint32_t` (a negative difference wraps). -/
def extract_payload (unc : ℕ → List ℕ → ℕ → ℕ × List ℕ × ℕ)
    (e0 : Extractor) (d : ExtractedData) : ExtractedData × Extractor :=
  if d.is_encrypted then
    let r := e0.get_data d.info.payload_size (bits_to_bytes d.info.payload_size)
    ({ d with encrypted_payload := r.1 }, r.2)
  else
    let rc := e0.get_num 1
    let is_compressed : Bool := decide (rc.1 ≠ 0)
    let pr :=
      if is_compressed then
        let num_compressed_bytes := bits_to_bytes (u32sub1 d.info.payload_size)
        let ru := rc.2.get_num 32
        let rcp := ru.2.get_data (u32sub1 d.info.payload_size) num_compressed_bytes
        let z := unc (bits_to_bytes ru.1) rcp.1 num_compressed_bytes
        -- z.1 is the zlib status: it is dropped, exactly as the source does;
        -- z.2.2 is the updated destLen, used below as payload_size_bytes
        ((z.2.1, z.2.2, ru.1), rcp.2)
      else
        let payload_size_bytes := bits_to_bytes (u32sub1 d.info.payload_size)
        let rp := rc.2.get_data (u32sub1 d.info.payload_size) payload_size_bytes
        ((rp.1, payload_size_bytes, d.data.uncompressed_size), rp.2)
    let payload := pr.1.1
    let payload_size_bytes := pr.1.2.1
    let has_checksum : Bool := decide ((payload.getD 0 0) &&& 1 ≠ 0)
    let payload2 := shift_bits payload (payload_size_bytes * 8)
    let checksum := if has_checksum then le32 payload2 else d.data.checksum
    let fnStart := if has_checksum then 4 else 0
    let filename := (payload2.drop fnStart).takeWhile (fun b => decide (b ≠ 0))
    let contentsStart := fnStart + filename.length + 1
    let clen := (bits_to_bytes (u32sub2 d.info.payload_size) + 4294967296
      - contentsStart) % 4294967296
    let file_contents := (payload2.drop contentsStart).take clen
    ({ d with data := { is_compressed := is_compressed,
                        uncompressed_size := pr.1.2.2,
                        has_checksum := has_checksum,
                        checksum := checksum,
                        filename := filename,
                        file_contents := file_contents } }, pr.2)

/-- `(uint32_t)(bits.size() / 3) - 65` (utils.cc line 204), in `uint32_t`
arithmetic: for a BitSource with fewer than `195` bits this wraps around. -/
def max_payload_size (bitsSize : ℕ) : ℕ :=
  ((bitsSize / 3) % 4294967296 + 4294967296 - 65) % 4294967296

/-- The five sequential header reads of the extract_files loop
(utils.cc lines 211–217), producing the candidate's record shell and the
session positioned at bit 65. -/
def read_header (σ : ℕ → Bool) : ExtractedData × Extractor :=
  let e0 : Extractor := ⟨σ, 0⟩
  let r1 := e0.get_num 24
  let r2 := r1.2.get_num 1
  let r3 := r2.2.get_num 5
  let r4 := r3.2.get_num 3
  let r5 := r4.2.get_num 32
  ({ is_encrypted := decide (r3.1 ≠ 0),
     info := { magic_bytes := r1.1, version := r2.1, enc_algo := r3.1,
               enc_mode := r4.1, payload_size := r5.1 },
     encrypted_payload := [],
     data := { is_compressed := false, uncompressed_size := 0,
               has_checksum := false, checksum := 0, filename := [],
               file_contents := [] } }, r5.2)

/-- One iteration of the `extract_files` loop (utils.cc lines 206–228): read
the 65-bit header, silently discard the candidate when the metadata is
invalid (`continue`), otherwise run the payload decoder and keep the record
(`push_back`). -/
def extract_one (unc : ℕ → List ℕ → ℕ → ℕ × List ℕ × ℕ)
    (bitsSize : ℕ) (σ : ℕ → Bool) : Option ExtractedData :=
  let r := read_header σ
  if r.1.info.payload_size > max_payload_size bitsSize ∨ r.1.info.enc_algo > 22
      ∨ r.1.info.version ≠ 0
  then none
  else some (extract_payload unc r.2 r.1).1

/-- `extract_files` (utils.cc lines 193–231). -/
def extract_files (unc : ℕ → List ℕ → ℕ → ℕ × List ℕ × ℕ)
    (bitsSize : ℕ) (streams : ℕ → ℕ → Bool) (seeds : List ℕ) :
    List ExtractedData :=
  seeds.filterMap (fun s => extract_one unc bitsSize (streams s))

theorem max_payload_size_eq {bitsSize : ℕ} (h65 : 65 ≤ bitsSize / 3)
    (hlt : bitsSize / 3 < 4294967296) :
    max_payload_size bitsSize = bitsSize / 3 - 65 := by
  unfold max_payload_size
  omega

/-- **C3.**  For a BitSource with `⌊|bits|/3⌋ ≥ 65` (so that
`maxPayloadSize = ⌊|bits|/3⌋ − 65` does not wrap; the wrap case is C8's
subject), the Candidate Filter keeps a candidate iff
`payloadSizeBits ≤ maxPayloadSize ∧ encAlgo ≤ 22 ∧ version = 0` — i.e. it
rejects (silently skips, with no error surfaced) exactly when
`payloadSizeBits > maxPayloadSize ∨ encAlgo > 22 ∨ version ≠ 0` — and every
surviving candidate is passed to the Payload Decoder and yields exactly one
record, in input order. -/
theorem c3_filter (unc : ℕ → List ℕ → ℕ → ℕ × List ℕ × ℕ)
    (bitsSize : ℕ) (streams : ℕ → ℕ → Bool) (seeds : List ℕ)
    (h65 : 65 ≤ bitsSize / 3) (hlt : bitsSize / 3 < 4294967296) :
    extract_files unc bitsSize streams seeds
      = (seeds.filter (fun s =>
          decide ((read_header (streams s)).1.info.payload_size ≤ bitsSize / 3 - 65 ∧
            (read_header (streams s)).1.info.enc_algo ≤ 22 ∧
            (read_header (streams s)).1.info.version = 0))).map
          (fun s => (extract_payload unc (read_header (streams s)).2
            (read_header (streams s)).1).1) := by
  have hone : ∀ σ : ℕ → Bool, extract_one unc bitsSize σ
      = if (read_header σ).1.info.payload_size ≤ bitsSize / 3 - 65 ∧
          (read_header σ).1.info.enc_algo ≤ 22 ∧ (read_header σ).1.info.version = 0
        then some (extract_payload unc (read_header σ).2 (read_header σ).1).1
        else none := by
    intro σ
    unfold extract_one
    rw [max_payload_size_eq h65 hlt]
    by_cases hc : (read_header σ).1.info.payload_size ≤ bitsSize / 3 - 65 ∧
        (read_header σ).1.info.enc_algo ≤ 22 ∧ (read_header σ).1.info.version = 0
    · rw [if_pos hc, if_neg (by omega)]
    · rw [if_neg hc, if_pos (by omega)]
  unfold extract_files
  induction seeds with
  | nil => rfl
  | cons s rest ih =>
    rw [List.filterMap_cons, hone (streams s)]
    by_cases hc : (read_header (streams s)).1.info.payload_size ≤ bitsSize / 3 - 65 ∧
        (read_header (streams s)).1.info.enc_algo ≤ 22 ∧
        (read_header (streams s)).1.info.version = 0
    · have hstep : List.filter (fun s =>
          decide ((read_header (streams s)).1.info.payload_size ≤ bitsSize / 3 - 65 ∧
            (read_header (streams s)).1.info.enc_algo ≤ 22 ∧
            (read_header (streams s)).1.info.version = 0)) (s :: rest)
          = s :: List.filter (fun s =>
          decide ((read_header (streams s)).1.info.payload_size ≤ bitsSize / 3 - 65 ∧
            (read_header (streams s)).1.info.enc_algo ≤ 22 ∧
            (read_header (streams s)).1.info.version = 0)) rest :=
        List.filter_cons_of_pos (decide_eq_true hc)
      rw [if_pos hc, hstep, List.map_cons, ih]
    · have hstep : List.filter (fun s =>
          decide ((read_header (streams s)).1.info.payload_size ≤ bitsSize / 3 - 65 ∧
            (read_header (streams s)).1.info.enc_algo ≤ 22 ∧
            (read_header (streams s)).1.info.version = 0)) (s :: rest)
          = List.filter (fun s =>
          decide ((read_header (streams s)).1.info.payload_size ≤ bitsSize / 3 - 65 ∧
            (read_header (streams s)).1.info.enc_algo ≤ 22 ∧
            (read_header (streams s)).1.info.version = 0)) rest :=
        List.filter_cons_of_neg (by simpa using hc)
      rw [if_neg hc, hstep, ih]

theorem and_one_ne_zero_iff_testBit (x : ℕ) :
    decide (x &&& 1 ≠ 0) = x.testBit 0 := by
  rw [Nat.and_one_is_mod, Nat.testBit_to_div_mod]
  rcases Nat.mod_two_eq_zero_or_one x with h | h <;> simp [h, Nat.div_one]

theorem bits_to_bytes_mono {m n : ℕ} (h : m ≤ n) :
    bits_to_bytes m ≤ bits_to_bytes n := by
  unfold bits_to_bytes
  have h1 : roundFP 24 (m:ℚ) ≤ roundFP 24 (n:ℚ) :=
    roundFP_mono (by norm_num) (by exact_mod_cast h)
  have h2 : roundFP 24 (roundFP 24 (m:ℚ) / 8) ≤ roundFP 24 (roundFP 24 (n:ℚ) / 8) :=
    roundFP_mono (by norm_num) (by linarith)
  have h3 := Int.ceil_mono h2
  omega

/-- Evaluation of `extract_payload` on the plaintext, uncompressed branch:
the session delivers the `is_compressed` flag bit (0) at `p`, then the raw
payload of `payload_size - 1` bits starting at `p + 1`. -/
theorem extract_payload_uncompressed (unc : ℕ → List ℕ → ℕ → ℕ × List ℕ × ℕ)
    (σ : ℕ → Bool) (p : ℕ) (d : ExtractedData)
    (hd : d.is_encrypted = false) (hcmp : σ p = false) :
    extract_payload unc ⟨σ, p⟩ d
      = (let ps := d.info.payload_size
         let payload := getData σ (p + 1) (u32sub1 ps) (bits_to_bytes (u32sub1 ps))
         let hc : Bool := decide ((payload.getD 0 0) &&& 1 ≠ 0)
         let payload2 := shift_bits payload (bits_to_bytes (u32sub1 ps) * 8)
         let fnStart := if hc then 4 else 0
         let filename := (payload2.drop fnStart).takeWhile (fun b => decide (b ≠ 0))
         let contentsStart := fnStart + filename.length + 1
         let clen := (bits_to_bytes (u32sub2 ps) + 4294967296 - contentsStart) % 4294967296
         ({ d with data := { is_compressed := false,
                             uncompressed_size := d.data.uncompressed_size,
                             has_checksum := hc,
                             checksum := if hc then le32 payload2 else d.data.checksum,
                             filename := filename,
                             file_contents := (payload2.drop contentsStart).take clen } },
          (⟨σ, p + 1 + u32sub1 ps⟩ : Extractor))) := by
  unfold extract_payload
  rw [hd]
  simp [Extractor.get_num, Extractor.get_data, packBits, hcmp]

/-- Evaluation of `extract_payload` on the plaintext, compressed branch
(utils.cc lines 133–149 followed by the shared parse tail, lines 160–186):
the session delivers the `is_compressed` flag bit (1) at `p`, the 32-bit
`uncompressed_size` field, then the compressed payload of
`payload_size - 1` bits; the parsed buffer is the `uncompress` oracle's
output, realigned over its `destLen`-out byte count. -/
theorem extract_payload_compressed (unc : ℕ → List ℕ → ℕ → ℕ × List ℕ × ℕ)
    (σ : ℕ → Bool) (p : ℕ) (d : ExtractedData)
    (hd : d.is_encrypted = false) (hcmp : σ p = true) :
    extract_payload unc ⟨σ, p⟩ d
      = (let ps := d.info.payload_size
         let usize := packBits (fun j => σ (p + 1 + j)) 32
         let z := unc (bits_to_bytes usize)
             (getData σ (p + 1 + 32) (u32sub1 ps) (bits_to_bytes (u32sub1 ps)))
             (bits_to_bytes (u32sub1 ps))
         let payload := z.2.1
         let hc : Bool := decide ((payload.getD 0 0) &&& 1 ≠ 0)
         let payload2 := shift_bits payload (z.2.2 * 8)
         let fnStart := if hc then 4 else 0
         let filename := (payload2.drop fnStart).takeWhile (fun b => decide (b ≠ 0))
         let contentsStart := fnStart + filename.length + 1
         let clen := (bits_to_bytes (u32sub2 ps) + 4294967296 - contentsStart) % 4294967296
         ({ d with data := { is_compressed := true,
                             uncompressed_size := usize,
                             has_checksum := hc,
                             checksum := if hc then le32 payload2 else d.data.checksum,
                             filename := filename,
                             file_contents := (payload2.drop contentsStart).take clen } },
          (⟨σ, p + 1 + 32 + u32sub1 ps⟩ : Extractor))) := by
  have hflag : packBits (fun j => σ (p + j)) 1 = 1 := by
    simp [packBits, hcmp]
  unfold extract_payload
  rw [hd]
  simp [Extractor.get_num, Extractor.get_data, hflag]

/-- `(float)4294967295` rounds up to `4294967296 = 2^32`. -/
theorem roundFP_float_uint32_max : roundFP 24 (4294967295 : ℚ) = 4294967296 := by
  have he : qLog2 (4294967295 : ℚ) = 31 :=
    qLog2_unique (by norm_num) (by norm_num) (by norm_num)
  have hfl : ⌊(4294967295 : ℚ) * 2 ^ (((24:ℕ):ℤ) - 1 - 31)⌋ = 16777215 := by
    rw [Int.floor_eq_iff]
    norm_num
  have hr : rne ((4294967295 : ℚ) * 2 ^ (((24:ℕ):ℤ) - 1 - 31)) = 16777216 := by
    unfold rne
    rw [hfl]
    norm_num
  unfold roundFP
  rw [if_neg (by norm_num), he, hr]
  norm_num

theorem bits_to_bytes_uint32_max : bits_to_bytes 4294967295 = 536870912 := by
  unfold bits_to_bytes
  rw [show ((4294967295:ℕ):ℚ) = (4294967295:ℚ) by norm_num, roundFP_float_uint32_max]
  have h8 : (4294967296:ℚ) / 8 = 2 ^ (29:ℤ) := by norm_num
  rw [h8, roundFP_two_zpow (by norm_num),
    show ((2:ℚ) ^ (29:ℤ)) = ((536870912:ℕ):ℚ) by norm_num, Int.ceil_natCast]
  rfl

theorem bits_to_bytes_le_max {x : ℕ} (h : x ≤ 4294967295) :
    bits_to_bytes x ≤ 536870912 := by
  calc bits_to_bytes x ≤ bits_to_bytes 4294967295 := bits_to_bytes_mono h
    _ = 536870912 := bits_to_bytes_uint32_max

/-- The raw plaintext payload buffer of the uncompressed branch
(utils.cc lines 154–156): `payload_size - 1` bits read starting one bit
after the compression flag. -/
def rawPayload (σ : ℕ → Bool) (p ps : ℕ) : List ℕ :=
  getData σ (p + 1) (ps - 1) (bits_to_bytes (ps - 1))

/-- The payload buffer after the one-bit realignment (utils.cc line 163). -/
def realigned (σ : ℕ → Bool) (p ps : ℕ) : List ℕ :=
  shift_bits (rawPayload σ p ps) (bits_to_bytes (ps - 1) * 8)

/-- The 32-bit `uncompressed_size` field of the compressed branch
(utils.cc line 138), read right after the compression flag bit. -/
def uncompressed_size_field (σ : ℕ → Bool) (p : ℕ) : ℕ :=
  packBits (fun j => σ (p + 1 + j)) 32

/-- The compressed payload buffer (utils.cc lines 135 and 142–143):
`payload_size - 1` bits read after the flag and the size field. -/
def compressedBuf (σ : ℕ → Bool) (p ps : ℕ) : List ℕ :=
  getData σ (p + 1 + 32) (ps - 1) (bits_to_bytes (ps - 1))

/-- The `uncompress` oracle's output buffer on the compressed branch
(utils.cc lines 146–147). -/
def rawInflated (unc : ℕ → List ℕ → ℕ → ℕ × List ℕ × ℕ)
    (σ : ℕ → Bool) (p ps : ℕ) : List ℕ :=
  (unc (bits_to_bytes (uncompressed_size_field σ p)) (compressedBuf σ p ps)
    (bits_to_bytes (ps - 1))).2.1

/-- The `uncompress` oracle's `destLen`-out on the compressed branch: the
`payload_size_bytes` value the parse tail realigns over (utils.cc line 147
passes `&payload_size_bytes`, which `uncompress` updates). -/
def inflatedBytes (unc : ℕ → List ℕ → ℕ → ℕ × List ℕ × ℕ)
    (σ : ℕ → Bool) (p ps : ℕ) : ℕ :=
  (unc (bits_to_bytes (uncompressed_size_field σ p)) (compressedBuf σ p ps)
    (bits_to_bytes (ps - 1))).2.2

/-- The pre-realignment payload buffer of the plaintext path, covering both
sub-branches: the raw extracted bytes when uncompressed, zlib's output when
compressed.  utils.cc line 160 reads `hasChecksum` off this buffer. -/
def rawBuf (unc : ℕ → List ℕ → ℕ → ℕ × List ℕ × ℕ)
    (σ : ℕ → Bool) (p ps : ℕ) : List ℕ :=
  if σ p then rawInflated unc σ p ps else rawPayload σ p ps

/-- The byte count the parse tail realigns over (`payload_size_bytes` as of
utils.cc line 163), covering both sub-branches. -/
def rawBufBytes (unc : ℕ → List ℕ → ℕ → ℕ × List ℕ × ℕ)
    (σ : ℕ → Bool) (p ps : ℕ) : ℕ :=
  if σ p then inflatedBytes unc σ p ps else bits_to_bytes (ps - 1)

/-- The plaintext payload buffer after the one-bit realignment
(utils.cc line 163), covering both sub-branches. -/
def realignedBuf (unc : ℕ → List ℕ → ℕ → ℕ × List ℕ × ℕ)
    (σ : ℕ → Bool) (p ps : ℕ) : List ℕ :=
  shift_bits (rawBuf unc σ p ps) (rawBufBytes unc σ p ps * 8)

/-- **C4 (amended).**  For every plaintext payload (both the compressed and
the uncompressed sub-branch share the parse tail, utils.cc lines 160–186),
parsing works as the claim states **except** that `hasChecksum` is bit 0 of
the **raw** pre-realignment buffer — the raw extracted bytes when
uncompressed, zlib's output when compressed — read *before* realignment
(utils.cc line 160 precedes the shift at line 163), not bit 0 of the
realigned buffer: if `hasChecksum` is set, the first 4 bytes of the
realigned buffer, read with low-byte (little endian) semantics as a 32-bit
unsigned integer, are the checksum and the filename starts at byte offset
4, otherwise at byte offset 0; the filename is the bytes up to the first
null byte; and the contents are every byte after that null byte up to byte
index `coveringBytes(payloadSizeBits - 2)` of the realigned buffer. -/
theorem c4_amended (unc : ℕ → List ℕ → ℕ → ℕ × List ℕ × ℕ)
    (σ : ℕ → Bool) (p : ℕ) (d : ExtractedData)
    (hd : d.is_encrypted = false)
    (h2 : 2 ≤ d.info.payload_size) (hps : d.info.payload_size < 4294967296)
    (hfit : (if getBit (rawBuf unc σ p d.info.payload_size) 0 then 4 else 0)
        + (((realignedBuf unc σ p d.info.payload_size).drop
            (if getBit (rawBuf unc σ p d.info.payload_size) 0 then 4 else 0)).takeWhile
            (fun b => decide (b ≠ 0))).length + 1
        ≤ bits_to_bytes (d.info.payload_size - 2)) :
    ((extract_payload unc ⟨σ, p⟩ d).1.data.has_checksum
        = getBit (rawBuf unc σ p d.info.payload_size) 0) ∧
    ((extract_payload unc ⟨σ, p⟩ d).1.data.checksum
        = if getBit (rawBuf unc σ p d.info.payload_size) 0
          then le32 (realignedBuf unc σ p d.info.payload_size) else d.data.checksum) ∧
    ((extract_payload unc ⟨σ, p⟩ d).1.data.filename
        = ((realignedBuf unc σ p d.info.payload_size).drop
            (if getBit (rawBuf unc σ p d.info.payload_size) 0 then 4 else 0)).takeWhile
            (fun b => decide (b ≠ 0))) ∧
    ((extract_payload unc ⟨σ, p⟩ d).1.data.file_contents
        = ((realignedBuf unc σ p d.info.payload_size).take
            (bits_to_bytes (d.info.payload_size - 2))).drop
            ((if getBit (rawBuf unc σ p d.info.payload_size) 0 then 4 else 0)
              + (((realignedBuf unc σ p d.info.payload_size).drop
                  (if getBit (rawBuf unc σ p d.info.payload_size) 0 then 4 else 0)).takeWhile
                  (fun b => decide (b ≠ 0))).length + 1)) := by
  have hsub1 : u32sub1 d.info.payload_size = d.info.payload_size - 1 := by
    unfold u32sub1
    omega
  have hsub2 : u32sub2 d.info.payload_size = d.info.payload_size - 2 := by
    unfold u32sub2
    omega
  have hhc : decide (((rawBuf unc σ p d.info.payload_size).getD 0 0) &&& 1 ≠ 0)
      = getBit (rawBuf unc σ p d.info.payload_size) 0 := by
    unfold getBit
    norm_num [and_one_ne_zero_iff_testBit]
  have hmax : bits_to_bytes (d.info.payload_size - 2) ≤ 536870912 :=
    bits_to_bytes_le_max (by omega)
  have hclen : (bits_to_bytes (d.info.payload_size - 2) + 4294967296
      - ((if getBit (rawBuf unc σ p d.info.payload_size) 0 then 4 else 0)
        + (((realignedBuf unc σ p d.info.payload_size).drop
            (if getBit (rawBuf unc σ p d.info.payload_size) 0 then 4 else 0)).takeWhile
            (fun b => decide (b ≠ 0))).length + 1)) % 4294967296
      = bits_to_bytes (d.info.payload_size - 2)
        - ((if getBit (rawBuf unc σ p d.info.payload_size) 0 then 4 else 0)
          + (((realignedBuf unc σ p d.info.payload_size).drop
              (if getBit (rawBuf unc σ p d.info.payload_size) 0 then 4 else 0)).takeWhile
              (fun b => decide (b ≠ 0))).length + 1) := by
    omega
  cases hcmp : σ p with
  | false =>
    have heval := extract_payload_uncompressed unc σ p d hd hcmp
    simp only [] at heval
    rw [hsub1, hsub2] at heval
    have hraw : getData σ (p + 1) (d.info.payload_size - 1)
        (bits_to_bytes (d.info.payload_size - 1))
        = rawBuf unc σ p d.info.payload_size := by
      simp [rawBuf, rawPayload, hcmp]
    have hreal : shift_bits (rawBuf unc σ p d.info.payload_size)
        (bits_to_bytes (d.info.payload_size - 1) * 8)
        = realignedBuf unc σ p d.info.payload_size := by
      simp [realignedBuf, rawBuf, rawBufBytes, hcmp]
    rw [hraw, hreal, hhc] at heval
    rw [heval]
    refine ⟨rfl, rfl, rfl, ?_⟩
    rw [hclen, List.drop_take]
  | true =>
    have heval := extract_payload_compressed unc σ p d hd hcmp
    simp only [] at heval
    rw [hsub1, hsub2] at heval
    have hraw : (unc (bits_to_bytes (packBits (fun j => σ (p + 1 + j)) 32))
        (getData σ (p + 1 + 32) (d.info.payload_size - 1)
          (bits_to_bytes (d.info.payload_size - 1)))
        (bits_to_bytes (d.info.payload_size - 1))).2.1
        = rawBuf unc σ p d.info.payload_size := by
      simp [rawBuf, rawInflated, uncompressed_size_field, compressedBuf, hcmp]
    have hbytes : (unc (bits_to_bytes (packBits (fun j => σ (p + 1 + j)) 32))
        (getData σ (p + 1 + 32) (d.info.payload_size - 1)
          (bits_to_bytes (d.info.payload_size - 1)))
        (bits_to_bytes (d.info.payload_size - 1))).2.2
        = rawBufBytes unc σ p d.info.payload_size := by
      simp [rawBufBytes, inflatedBytes, uncompressed_size_field, compressedBuf, hcmp]
    rw [hraw, hbytes] at heval
    have hreal : shift_bits (rawBuf unc σ p d.info.payload_size)
        (rawBufBytes unc σ p d.info.payload_size * 8)
        = realignedBuf unc σ p d.info.payload_size := by
      simp [realignedBuf]
    rw [hreal, hhc] at heval
    rw [heval]
    refine ⟨rfl, rfl, rfl, ?_⟩
    rw [hclen, List.drop_take]

/-- Example seed-derived stream used by the C4 theorems: after the
compression flag (bit 0, clear) it carries the 25 payload bits of a
checksum-free record with filename byte `97`, a null, and content byte
`65`. -/
def exStream (i : ℕ) : Bool :=
  decide (i = 2 ∨ i = 7 ∨ i = 8 ∨ i = 18 ∨ i = 24)

/-- Example record shell: a validated plaintext candidate with a 26-bit
payload. -/
def exRecord : ExtractedData :=
  { is_encrypted := false,
    info := { magic_bytes := 0, version := 0, enc_algo := 0, enc_mode := 0,
              payload_size := 26 },
    encrypted_payload := [],
    data := { is_compressed := false, uncompressed_size := 0, has_checksum := false,
              checksum := 0, filename := [], file_contents := [] } }

/-- Example `uncompress` oracle (never consulted on the uncompressed path). -/
def exUnc (_cap : ℕ) (_src : List ℕ) (_srcLen : ℕ) : ℕ × List ℕ × ℕ := (0, [], 0)

theorem bits_to_bytes_25 : bits_to_bytes 25 = 4 := by
  rw [bits_to_bytes_eq_ceil (by norm_num)]

theorem bits_to_bytes_24 : bits_to_bytes 24 = 3 := by
  rw [bits_to_bytes_eq_ceil (by norm_num)]

theorem c4_fit_helper :
    (if getBit (rawBuf exUnc exStream 0 exRecord.info.payload_size) 0 then 4 else 0)
      + (((realignedBuf exUnc exStream 0 exRecord.info.payload_size).drop
          (if getBit (rawBuf exUnc exStream 0 exRecord.info.payload_size) 0
            then 4 else 0)).takeWhile (fun b => decide (b ≠ 0))).length + 1
      ≤ bits_to_bytes (exRecord.info.payload_size - 2) := by
  have hps : exRecord.info.payload_size = 26 := rfl
  rw [hps]
  have hflag : exStream 0 = false := rfl
  have hb : rawBuf exUnc exStream 0 26 = rawPayload exStream 0 26 := by
    simp [rawBuf, hflag]
  have hr : realignedBuf exUnc exStream 0 26 = realigned exStream 0 26 := by
    simp [realignedBuf, rawBuf, rawBufBytes, realigned, hflag]
  rw [hb, hr]
  unfold realigned rawPayload
  rw [show (26:ℕ) - 1 = 25 by norm_num, show (26:ℕ) - 2 = 24 by norm_num,
    bits_to_bytes_25, bits_to_bytes_24]
  decide

/-- **C4, counterexample.**  The claim reads `hasChecksum` off the realigned
buffer, the code (utils.cc line 160) reads it off the raw buffer *before*
`shift_bits` runs (line 163).  On this concrete plaintext payload the code
stores `hasChecksum = false` although bit 0 of the realigned buffer is set —
so "bit 0 of the realigned buffer is hasChecksum" is false of the code. -/
theorem c4_counterexample :
    (extract_payload exUnc ⟨exStream, 0⟩ exRecord).1.data.has_checksum = false ∧
    getBit (realigned exStream 0 26) 0 = true := by
  constructor
  · have h := extract_payload_uncompressed exUnc exStream 0 exRecord rfl rfl
    simp only [] at h
    have hps : exRecord.info.payload_size = 26 := rfl
    rw [hps] at h
    rw [show u32sub1 26 = 25 by decide, show u32sub2 26 = 24 by decide,
      bits_to_bytes_25, bits_to_bytes_24] at h
    rw [h]
    decide
  · unfold realigned rawPayload
    rw [show (26:ℕ) - 1 = 25 by norm_num, bits_to_bytes_25]
    decide

/-- Closed witness for `c4_amended` on the example payload. -/
theorem c4_amended_witness :
    ((extract_payload exUnc ⟨exStream, 0⟩ exRecord).1.data.has_checksum
        = getBit (rawBuf exUnc exStream 0 exRecord.info.payload_size) 0) ∧
    ((extract_payload exUnc ⟨exStream, 0⟩ exRecord).1.data.checksum
        = if getBit (rawBuf exUnc exStream 0 exRecord.info.payload_size) 0
          then le32 (realignedBuf exUnc exStream 0 exRecord.info.payload_size)
          else exRecord.data.checksum) ∧
    ((extract_payload exUnc ⟨exStream, 0⟩ exRecord).1.data.filename
        = ((realignedBuf exUnc exStream 0 exRecord.info.payload_size).drop
            (if getBit (rawBuf exUnc exStream 0 exRecord.info.payload_size) 0
              then 4 else 0)).takeWhile (fun b => decide (b ≠ 0))) ∧
    ((extract_payload exUnc ⟨exStream, 0⟩ exRecord).1.data.file_contents
        = ((realignedBuf exUnc exStream 0 exRecord.info.payload_size).take
            (bits_to_bytes (exRecord.info.payload_size - 2))).drop
            ((if getBit (rawBuf exUnc exStream 0 exRecord.info.payload_size) 0
              then 4 else 0)
              + (((realignedBuf exUnc exStream 0 exRecord.info.payload_size).drop
                  (if getBit (rawBuf exUnc exStream 0 exRecord.info.payload_size) 0
                    then 4 else 0)).takeWhile (fun b => decide (b ≠ 0))).length + 1)) :=
  c4_amended exUnc exStream 0 exRecord rfl (by decide) (by decide) c4_fit_helper

theorem packBits_zero_of_false : ∀ (k : ℕ) (g : ℕ → Bool),
    (∀ j, g j = false) → packBits g k = 0 := by
  intro k
  induction k with
  | zero =>
    intro g _
    rfl
  | succ m ih =>
    intro g hg
    rw [packBits, hg 0, ih (fun j => g (j + 1)) (fun j => hg (j + 1))]
    norm_num

theorem read_header_allfalse_fields :
    (read_header (fun _ => false)).1.info.enc_algo = 0 ∧
    (read_header (fun _ => false)).1.info.version = 0 ∧
    (read_header (fun _ => false)).1.info.payload_size = 0 := by
  refine ⟨?_, ?_, ?_⟩ <;> exact packBits_zero_of_false _ _ (fun _ => rfl)

/-- **C10.**  The Candidate Filter imposes no lower bound on
`payloadSizeBits`: a candidate whose header has `version = 0`, `encAlgo = 0`
and `payloadSizeBits = 0` passes validation and yields a record; and the
plaintext branch of the Payload Decoder computes `payload_size - 1` in
unsigned 32-bit arithmetic, which wraps to `2^32 - 1`, and requests that
many bits from the extraction session. -/
theorem c10_no_lower_bound (unc : ℕ → List ℕ → ℕ → ℕ × List ℕ × ℕ)
    (bitsSize : ℕ) (streams : ℕ → ℕ → Bool) (s : ℕ) (σ : ℕ → Bool) (p : ℕ)
    (d : ExtractedData)
    (he : (read_header (streams s)).1.info.enc_algo = 0)
    (hv : (read_header (streams s)).1.info.version = 0)
    (hp0 : (read_header (streams s)).1.info.payload_size = 0)
    (hd : d.is_encrypted = false) (hps : d.info.payload_size = 0)
    (hcmp : σ p = false) :
    (extract_files unc bitsSize streams [s]).length = 1 ∧
    u32sub1 0 = 2 ^ 32 - 1 ∧
    (extract_payload unc ⟨σ, p⟩ d).2.pos = p + 1 + (2 ^ 32 - 1) := by
  refine ⟨?_, by decide, ?_⟩
  · unfold extract_files
    have hsome : extract_one unc bitsSize (streams s)
        = some (extract_payload unc (read_header (streams s)).2
            (read_header (streams s)).1).1 := by
      unfold extract_one
      rw [if_neg (by rw [hp0, he, hv]; omega)]
    simp only [List.filterMap_cons, hsome]
    rfl
  · have h := extract_payload_uncompressed unc σ p d hd hcmp
    simp only [] at h
    rw [hps] at h
    rw [h]
    show p + 1 + u32sub1 0 = p + 1 + (2 ^ 32 - 1)
    rw [show u32sub1 0 = 2 ^ 32 - 1 by decide]

/-- Closed witness for `c10_no_lower_bound`: all-false streams, seed 0, a
record shell with `payload_size = 0`. -/
theorem c10_no_lower_bound_witness :
    (extract_files exUnc 300 (fun _ _ => false) [0]).length = 1 ∧
    u32sub1 0 = 2 ^ 32 - 1 ∧
    (extract_payload exUnc ⟨fun _ => false, 0⟩
      { is_encrypted := false,
        info := { magic_bytes := 0, version := 0, enc_algo := 0, enc_mode := 0,
                  payload_size := 0 },
        encrypted_payload := [],
        data := { is_compressed := false, uncompressed_size := 0,
                  has_checksum := false, checksum := 0, filename := [],
                  file_contents := [] } }).2.pos = 0 + 1 + (2 ^ 32 - 1) :=
  c10_no_lower_bound exUnc 300 (fun _ _ => false) 0 (fun _ => false) 0
    { is_encrypted := false,
      info := { magic_bytes := 0, version := 0, enc_algo := 0, enc_mode := 0,
                payload_size := 0 },
      encrypted_payload := [],
      data := { is_compressed := false, uncompressed_size := 0,
                has_checksum := false, checksum := 0, filename := [],
                file_contents := [] } }
    read_header_allfalse_fields.1 read_header_allfalse_fields.2.1
    read_header_allfalse_fields.2.2 rfl rfl rfl

/-- **C7 (code evidence).**  The record type has no failure field, and
utils.cc line 147 drops `uncompress`'s return status: the records returned
by `extract_files` are one per surviving candidate *regardless of the
decompression oracle*, so a decompression size mismatch or corrupt stream is
silently ignored rather than surfaced as a distinguishable per-record decode
failure. -/
theorem c7_uncompress_status_ignored
    (unc1 unc2 : ℕ → List ℕ → ℕ → ℕ × List ℕ × ℕ)
    (bitsSize : ℕ) (streams : ℕ → ℕ → Bool) (seeds : List ℕ) :
    (extract_files unc1 bitsSize streams seeds).length
      = (extract_files unc2 bitsSize streams seeds).length := by
  unfold extract_files
  induction seeds with
  | nil => simp only [List.filterMap_nil]
  | cons s rest ih =>
    by_cases hc : (read_header (streams s)).1.info.payload_size
        > max_payload_size bitsSize ∨ (read_header (streams s)).1.info.enc_algo > 22
        ∨ (read_header (streams s)).1.info.version ≠ 0
    · have h1 : extract_one unc1 bitsSize (streams s) = none := by
        unfold extract_one
        rw [if_pos hc]
      have h2 : extract_one unc2 bitsSize (streams s) = none := by
        unfold extract_one
        rw [if_pos hc]
      simp only [List.filterMap_cons, h1, h2]
      exact ih
    · have h1 : extract_one unc1 bitsSize (streams s)
          = some (extract_payload unc1 (read_header (streams s)).2
              (read_header (streams s)).1).1 := by
        unfold extract_one
        rw [if_neg hc]
      have h2 : extract_one unc2 bitsSize (streams s)
          = some (extract_payload unc2 (read_header (streams s)).2
              (read_header (streams s)).1).1 := by
        unfold extract_one
        rw [if_neg hc]
      simp only [List.filterMap_cons, h1, h2, List.length_cons]
      rw [ih]

/-- **C8 (code evidence).**  No precondition validation exists anywhere in
the sources: `find_valid_seeds` with `workerCount = 0` silently returns an
empty list (its return type has no error channel), and a BitSource with
fewer bits than the 65-bit header (`|bits|/3 < 65`) makes
`max_payload_size` wrap to `2^32 - 65`, after which extraction proceeds and
even produces a record — nothing rejects the call before the search. -/
theorem c8_no_validation :
    find_valid_seeds (fun _ => false) 0 = [] ∧
    max_payload_size 0 = 2 ^ 32 - 65 ∧
    (extract_files exUnc 0 (fun _ _ => false) [0]).length = 1 := by
  refine ⟨rfl, by decide, ?_⟩
  · unfold extract_files
    have hsome : extract_one exUnc 0 ((fun _ _ => false) 0)
        = some (extract_payload exUnc (read_header ((fun _ _ => false) 0)).2
            (read_header ((fun _ _ => false) 0)).1).1 := by
      unfold extract_one
      rw [if_neg (by
        have h1 : (read_header ((fun _ _ => false) 0)).1.info.payload_size = 0 :=
          read_header_allfalse_fields.2.2
        have h2 : (read_header ((fun _ _ => false) 0)).1.info.enc_algo = 0 :=
          read_header_allfalse_fields.1
        have h3 : (read_header ((fun _ _ => false) 0)).1.info.version = 0 :=
          read_header_allfalse_fields.2.1
        rw [h1, h2, h3]
        omega)]
    simp only [List.filterMap_cons, hsome]
    rfl

/-- Closed witness for `c3_filter`: a 195-bit BitSource, the all-false
stream family, one candidate seed. -/
theorem c3_filter_witness :
    extract_files (fun _ _ _ => (0, [], 0)) 195 (fun _ _ => false) [0]
      = (([0] : List ℕ).filter (fun s =>
          decide ((read_header ((fun _ _ => false) s)).1.info.payload_size ≤ 195 / 3 - 65 ∧
            (read_header ((fun _ _ => false) s)).1.info.enc_algo ≤ 22 ∧
            (read_header ((fun _ _ => false) s)).1.info.version = 0))).map
          (fun s => (extract_payload (fun _ _ _ => (0, [], 0))
            (read_header ((fun _ _ => false) s)).2
            (read_header ((fun _ _ => false) s)).1).1) :=
  c3_filter (fun _ _ _ => (0, [], 0)) 195 (fun _ _ => false) [0]
    (by norm_num) (by norm_num)

end StegCrack
